import Mathlib

/-!
Shallow embedding of `lib/cli/module-map.js`: the `ModuleNode` value class and
the `ModuleMap` bidirectional dependency graph (a `Map` subclass), together
with its populate / delete / serialization / affected-files algorithms.

Modelling conventions:
* JavaScript `Set<string>` values are insertion-ordered duplicate-free lists
  (`JsSet`).  `Set#add` appends when absent, `Set#delete` removes the entry and
  keeps the order of the rest, `new Set(iterable)` deduplicates keeping the
  first occurrence.
* `ModuleNode` objects are mutable heap objects referenced by nodes of the map
  and by traversal frames; object identity matters (the populate algorithm's
  `seen` set holds object references).  We model the object store as an
  association list `Heap` from numeric references to node data.
* `ModuleMap extends Map<string, ModuleNode>`: an insertion-ordered association
  list from filename to node reference.  `Map#set` on an existing key keeps the
  key's position and replaces the value; on a new key it appends.
* The unbounded recursion / loops of the source (the cascading `delete`, the
  `_populate` work stack, the ancestor walk of `findAffectedFiles`) are given a
  fuel parameter.  Running out of fuel models non-termination of the source
  loop (for the recursive `delete`, a JavaScript stack overflow).
* External collaborators (the `precinct`/`filing-cabinet` dependency extractor
  and the `file-entry-cache` change detector, which are npm packages, not part
  of this repository) are oracle parameters, see `Env` and `Fec`.
-/

namespace ModuleMapModel

/-- JavaScript `Set<string>`: insertion-ordered, duplicate-free list. -/
abbrev JsSet := List String

/-- `Set#add`: appends the element if absent, otherwise leaves the set alone. -/
def jsSetAdd (s : JsSet) (x : String) : JsSet :=
  if x ∈ s then s else s ++ [x]

/-- `Set#delete`: removes the entry (if present), keeping the others in order. -/
def jsSetDelete (s : JsSet) (x : String) : JsSet :=
  s.filter (fun y => y ≠ x)

/-- `new Set(iterable)`: deduplicate, keeping first occurrences in order. -/
def jsSetOfList (l : List String) : JsSet :=
  l.foldl jsSetAdd []

/-- Options bag accepted by the `ModuleNode` constructor
(`{entryFiles = [], children = [], parents = []}`); each field is the element
sequence of whatever finite collection the caller passed. -/
structure NodeOpts where
  entryFiles : List String := []
  children : List String := []
  parents : List String := []
deriving Repr, DecidableEq

/-- The data of one `ModuleNode` object: a filename and the three string sets
(stored through the setters, which build a fresh `Set` from the input). -/
structure NodeData where
  filename : String
  entryFiles : JsSet
  parents : JsSet
  children : JsSet
deriving Repr, DecidableEq, Inhabited

/-- `new ModuleNode(filename, opts)` / `ModuleNode.create`: the constructor
assigns each collection through the corresponding setter, which stores
`new Set([...value])`. -/
def NodeData.create (filename : String) (opts : NodeOpts) : NodeData :=
  { filename := filename
    entryFiles := jsSetOfList opts.entryFiles
    parents := jsSetOfList opts.parents
    children := jsSetOfList opts.children }

/-- `node.children = value` (setter): store a fresh deduplicated copy. -/
def NodeData.setChildren (d : NodeData) (value : List String) : NodeData :=
  { d with children := jsSetOfList value }

/-- `node.parents = value` (setter): store a fresh deduplicated copy. -/
def NodeData.setParents (d : NodeData) (value : List String) : NodeData :=
  { d with parents := jsSetOfList value }

/-- `node.entryFiles = value` (setter): store a fresh deduplicated copy. -/
def NodeData.setEntryFiles (d : NodeData) (value : List String) : NodeData :=
  { d with entryFiles := jsSetOfList value }

/-- Object store for `ModuleNode` objects: reference ↦ node data. -/
abbrev Heap := List (Nat × NodeData)

/-- Read a node object (references handed out by the model are always live, so
a default value stands in for the unreachable missing case). -/
def heapGetD (h : Heap) (r : Nat) : NodeData :=
  match h.find? (fun p => p.1 == r) with
  | some p => p.2
  | none => default

/-- Overwrite (or install) the node object at a reference. -/
def heapSet : Heap → Nat → NodeData → Heap
  | [], r, d => [(r, d)]
  | (r', d') :: t, r, d =>
    if r' == r then (r, d) :: t else (r', d') :: heapSet t r d

/-- The state of one `ModuleMap` instance: the object heap, the next fresh
reference, the `Map` contents (insertion-ordered filename ↦ node reference),
the `entryFiles` set and the working directory. -/
structure MapState where
  heap : Heap
  nextRef : Nat
  nodes : List (String × Nat)
  entryFiles : JsSet
  cwd : String
deriving Repr, DecidableEq, Inhabited

/-- `Map#get`. -/
def mapGet (s : MapState) (k : String) : Option Nat :=
  match s.nodes.find? (fun p => p.1 == k) with
  | some p => some p.2
  | none => none

/-- `Map#has`. -/
def mapHas (s : MapState) (k : String) : Bool :=
  (mapGet s k).isSome

/-- `Map#set` on the underlying association list: replace in place, else
append. -/
def assocSet : List (String × Nat) → String → Nat → List (String × Nat)
  | [], k, v => [(k, v)]
  | (k', v') :: t, k, v =>
    if k' == k then (k, v) :: t else (k', v') :: assocSet t k v

/-- `this.set(filename, node)`. -/
def mapSetState (s : MapState) (k : String) (r : Nat) : MapState :=
  { s with nodes := assocSet s.nodes k r }

/-- `super.delete(filename)`: drop the entry from the map. -/
def mapDeleteKey (s : MapState) (k : String) : MapState :=
  { s with nodes := s.nodes.filter (fun p => p.1 != k) }

/-- The `files` getter: the map's keys. -/
def filesOf (s : MapState) : List String :=
  s.nodes.map (fun p => p.1)

/-- Allocate a fresh `ModuleNode` object and return its reference. -/
def allocNode (s : MapState) (filename : String) (opts : NodeOpts) :
    Nat × MapState :=
  (s.nextRef,
    { s with
      heap := heapSet s.heap s.nextRef (NodeData.create filename opts)
      nextRef := s.nextRef + 1 })

/-- POSIX absolute-path test (`path.isAbsolute`): does the path start with a
slash? -/
def pathIsAbsolute (f : String) : Bool :=
  match f.data with
  | [] => false
  | c :: _ => c == '/'

/-- Model of `path.resolve(cwd, f)` on the fragment exercised here: an
absolute path is returned as-is, a relative one is anchored at `cwd`
(dot-segment normalization is outside the modelled fragment; no path in this
development contains dot segments). -/
def pathResolve (cwd f : String) : String :=
  if pathIsAbsolute f then f else cwd ++ "/" ++ f

/-- Is `pat` a leading run of `cs`? -/
def charsLead : List Char → List Char → Bool
  | [], _ => true
  | _ :: _, [] => false
  | a :: as, b :: bs => a == b && charsLead as bs

/-- Does `cs` contain `pat` as a contiguous run? -/
def charsHaveRun (pat : List Char) : List Char → Bool
  | [] => charsLead pat []
  | b :: bs => charsLead pat (b :: bs) || charsHaveRun pat bs

/-- `String#includes`. -/
def strIncludes (s pat : String) : Bool :=
  charsHaveRun pat.data s.data

/-- The dependency-extractor collaborator (`precinct.paperwork` composed with
`filing-cabinet`, npm packages): for a filename, the list of resolved
dependency filenames, in the order the extractor returns them. -/
structure Env where
  deps : String → List String

/-- Modelled from the spec: the snapshot of the external `file-entry-cache`
change detector (an npm package, not part of this repository).  `changed f`
says whether `f` currently differs from the last reconciled snapshot. -/
structure FecBase where
  changed : String → Bool

/-- The `file-entry-cache` instance held by a `ModuleMap`: the reconciled
snapshot plus the entries explicitly forgotten via `removeEntry` (which count
as changed until the next reconcile). -/
structure Fec where
  base : FecBase
  removed : List String

/-- `fileEntryCache.hasFileChanged(f)`. -/
def Fec.hasChanged (c : Fec) (f : String) : Bool :=
  c.removed.contains f || c.base.changed f

/-- Modelled from the spec: `fileEntryCache.getUpdatedFiles(files)` returns the
subset of `files` that differ from the snapshot (same verdict per file as
`hasFileChanged`), in input order. -/
def Fec.updated (c : Fec) (files : List String) : List String :=
  files.filter (fun f => c.hasChanged f)

/-- `fileEntryCache.removeEntry(f)`: forget `f`'s snapshot, so it reports as
changed on the next query. -/
def Fec.removeEntry (c : Fec) (f : String) : Fec :=
  { c with removed := c.removed ++ [f] }

/-- Modelled from the spec: `reconcile(true)` commits the current on-disk
state as the new baseline; with a filesystem that does not change during the
run, every subsequent query reports the file as unchanged. -/
def Fec.persist (_ : Fec) : Fec :=
  { base := { changed := fun _ => false }, removed := [] }

/-- `findDependencies(filename)`: consult the extractor and keep the non-empty
results that do not contain `node_modules`, as a `Set`. -/
def findDependencies (env : Env) (filename : String) : JsSet :=
  jsSetOfList
    ((env.deps filename).filter
      (fun d => d != "" && !(strIncludes d "node_modules")))

/-- One entry of the `_populate` work stack: the node object plus the entry
node anchoring it (`{node, entryNode}`), both by object reference. -/
structure Frame where
  node : Nat
  entryNode : Option Nat
deriving Repr, DecidableEq

/-- The body of `_populate`'s inner `for (const child of children)` loop, over
an accumulator of (state, work stack with top first, seen refs).  Fetch or
create the child node, record the entry anchor and the parent back-edge,
install the child in the map, and push it unless already seen. -/
def childStep (entryN : Option Nat) (parentFilename : String)
    (acc : MapState × List Frame × List Nat) (child : String) :
    MapState × List Frame × List Nat :=
  let s := acc.1
  let stack := acc.2.1
  let seen := acc.2.2
  let refState : Nat × MapState :=
    match mapGet s child with
    | some r => (r, s)
    | none => allocNode s child {}
  let cref := refState.1
  let s1 := refState.2
  let cd := heapGetD s1.heap cref
  let cd1 :=
    match entryN with
    | some e =>
      { cd with entryFiles := jsSetAdd cd.entryFiles (heapGetD s1.heap e).filename }
    | none => cd
  let cd2 := { cd1 with parents := jsSetAdd cd1.parents parentFilename }
  let s2 := { s1 with heap := heapSet s1.heap cref cd2 }
  let s3 := mapSetState s2 child cref
  if cref ∈ seen then (s3, stack, seen)
  else (s3, ⟨cref, entryN⟩ :: stack, seen ++ [cref])

/-- `node.children = cs` inside `_populate` (assignment through the setter,
leaving the other fields alone). -/
def writeChildren (s : MapState) (r : Nat) (cs : List String) : MapState :=
  { s with heap := heapSet s.heap r ((heapGetD s.heap r).setChildren cs) }

/-- The `while (stack.length)` loop of `_populate`, fueled.  The stack is
top-first (JavaScript pushes/pops at the array's end).  `visited` records, in
order, the node reference of every frame popped, i.e. every run of the loop
body (instrumentation; the source keeps no such list). -/
def populateGo (env : Env) (fec : Fec) (force : Bool) :
    Nat → MapState → List Frame → List Nat → List Nat →
    Option (MapState × List Nat)
  | 0, _, _, _, _ => none
  | Nat.succ n, s, stack, seen, visited =>
    match stack with
    | [] => some (s, visited)
    | fr :: rest =>
      let nd := heapGetD s.heap fr.node
      let expanded : JsSet × MapState :=
        if force || fec.hasChanged nd.filename then
          let cs := findDependencies env nd.filename
          (cs, writeChildren s fr.node cs)
        else (nd.children, s)
      let seen1 := if fr.node ∈ seen then seen else seen ++ [fr.node]
      let step :=
        expanded.1.foldl (childStep fr.entryNode nd.filename)
          (expanded.2, rest, seen1)
      populateGo env fec force n step.1 step.2.1 step.2.2 (visited ++ [fr.node])

/-- Build the initial stack frame for a start node: it is its own entry anchor
iff its filename is in `this.entryFiles`. -/
def mkFrame (s : MapState) (r : Nat) : Frame :=
  if s.entryFiles.contains (heapGetD s.heap r).filename then ⟨r, some r⟩
  else ⟨r, none⟩

/-- `_populate(nodes, {force})`: push one frame per start node (`startRefs` is
the iteration order of the start set, so the last start node sits on top of
the stack) and run the work loop. -/
def populateFuel (env : Env) (fec : Fec) (fuel : Nat) (s : MapState)
    (startRefs : List Nat) (force : Bool) : Option (MapState × List Nat) :=
  populateGo env fec force fuel s ((startRefs.map (mkFrame s)).reverse) [] []

/-- Errors a `ModuleMap` operation can raise at run time: a `TypeError` from
dereferencing `undefined` (e.g. destructuring `this.get(child)` when the child
has no node), or exhaustion of the call stack / of the model's fuel. -/
inductive JsErr where
  | typeError
  | stackOverflow
deriving Repr, DecidableEq

/-- The `node.children.forEach` loop of `delete`, reading the live `children`
set of the node object `nref` at each step (a JavaScript `Set` iterator under
deletion-only concurrent mutation visits exactly the elements of the current
set that it has not visited yet, in set order).  `k` bounds the number of
steps by the size of `children` at loop entry; since `delete` never adds to
any set, the loop always finishes before the bound.  `cascade` is the
recursive `this.delete` at one less call-stack fuel. -/
def deleteChildLoop (cascade : MapState → String → Except JsErr MapState) :
    Nat → MapState → Nat → String → List String → Except JsErr MapState
  | 0, s, _, _, _ => .ok s
  | Nat.succ k, s, nref, nodeFilename, processed =>
    match (heapGetD s.heap nref).children.find?
        (fun c => !(processed.contains c)) with
    | none => .ok s
    | some c =>
      match mapGet s c with
      | none => .error .typeError
      | some cref =>
        let cd := heapGetD s.heap cref
        let ps := jsSetDelete cd.parents nodeFilename
        let s1 := { s with heap := heapSet s.heap cref { cd with parents := ps } }
        match (if ps.length == 0 then cascade s1 c else .ok s1) with
        | .error e => .error e
        | .ok s2 => deleteChildLoop cascade k s2 nref nodeFilename (processed ++ [c])

/-- The `node.parents.forEach` loop of `delete`: remove the node's filename
from each parent's `children` set (a `TypeError` if a listed parent has no
node).  The iterated set is not mutated during this loop, so a snapshot
suffices. -/
def deleteParentLoop : MapState → List String → String → Except JsErr MapState
  | s, [], _ => .ok s
  | s, p :: rest, nodeFilename =>
    match mapGet s p with
    | none => .error .typeError
    | some pref =>
      let pd := heapGetD s.heap pref
      let s1 :=
        { s with
          heap := heapSet s.heap pref
            { pd with children := jsSetDelete pd.children nodeFilename } }
      deleteParentLoop s1 rest nodeFilename

/-- The body of `ModuleMap#delete(filename)` given the recursive call at one
less stack depth: if present, walk the children (removing the back-edge and
cascading when a child's parents empty out), then strip the node from each
parent's children, drop it from `entryFiles`, and finally `super.delete`. -/
def deleteBody (cascade : MapState → String → Except JsErr MapState)
    (s : MapState) (filename : String) : Except JsErr MapState :=
  match mapGet s filename with
  | none => .ok (mapDeleteKey s filename)
  | some nref =>
    let nodeFilename := (heapGetD s.heap nref).filename
    let bound := (heapGetD s.heap nref).children.length
    match deleteChildLoop cascade bound s nref nodeFilename [] with
    | .error e => .error e
    | .ok s1 =>
      match deleteParentLoop s1 (heapGetD s1.heap nref).parents nodeFilename with
      | .error e => .error e
      | .ok s2 =>
        let s3 := { s2 with entryFiles := jsSetDelete s2.entryFiles filename }
        .ok (mapDeleteKey s3 filename)

/-- `ModuleMap#delete(filename)` with `fuel` call-stack levels; running out of
fuel at every depth models the unbounded recursion of the source (a stack
overflow). -/
def deleteFuel : Nat → MapState → String → Except JsErr MapState
  | 0 => fun _ _ => .error .stackOverflow
  | Nat.succ n => fun s f => deleteBody (deleteFuel n) s f

/-- One record of the on-disk module-map cache
(`{filename, children, entryFiles, parents}`). -/
structure CacheRecord where
  filename : String
  entryFiles : List String
  children : List String
  parents : List String
deriving Repr, DecidableEq

/-- `mergeFromCache({destructive})`: optionally clear the map, then install a
fresh node per cache record, keyed by the record's `filename` field.  The
cache contents are an association list in `Object.keys` order. -/
def mergeFromCacheModel (s : MapState) (cache : List (String × CacheRecord))
    (destructive : Bool) : MapState :=
  let s0 := if destructive then { s with nodes := [] } else s
  cache.foldl
    (fun st kv =>
      let r := kv.2
      let a := allocNode st r.filename
        { entryFiles := r.entryFiles, children := r.children, parents := r.parents }
      mapSetState a.2 r.filename a.1)
    s0

/-- `_init` (run by the constructor): resolve and deduplicate the configured
entry files, destructively load the graph cache, create nodes for unknown
entry files, collect the nodes of the changed-among-known files, and populate
them with `force = true`.  Cache persistence (`save`) does not change the
in-memory map and is omitted. -/
def initState (env : Env) (fec : Fec) (cache : List (String × CacheRecord))
    (entryFilesOpt : List String) (cwd : String) (fuel : Nat) :
    Option MapState :=
  let efiles := jsSetOfList ((jsSetOfList entryFilesOpt).map (pathResolve cwd))
  let s0 : MapState :=
    { heap := [], nextRef := 0, nodes := [], entryFiles := efiles, cwd := cwd }
  let s1 := mergeFromCacheModel s0 cache true
  let s2 := efiles.foldl
    (fun st f =>
      if mapHas st f then st
      else
        let a := allocNode st f {}
        mapSetState a.2 f a.1)
    s1
  let changed := jsSetOfList (fec.updated (filesOf s2))
  let startRefs := changed.foldl
    (fun acc f =>
      match mapGet s2 f with
      | some r => if acc.contains r then acc else acc ++ [r]
      | none => acc)
    ([] : List Nat)
  if startRefs.isEmpty then some s2
  else (populateFuel env fec fuel s2 startRefs true).map (fun p => p.1)

/-- `addEntryFile(filename)`: add the filename, as given, to `entryFiles`;
when the map has no node for it, create one and run `_populate` on just that
node (with the default `force = false`). -/
def addEntryFileModel (env : Env) (fec : Fec) (fuel : Nat) (s : MapState)
    (filename : String) : Option MapState :=
  let s1 := { s with entryFiles := jsSetAdd s.entryFiles filename }
  match mapGet s1 filename with
  | some _ => some s1
  | none =>
    let a := allocNode s1 filename {}
    let s2 := mapSetState a.2 filename a.1
    (populateFuel env fec fuel s2 [a.1] false).map (fun p => p.1)

/-- Lexicographic order on character lists (JavaScript's default sort
comparator compares strings by code units; on the paths of this development
that is plain lexicographic comparison). -/
def charListLe : List Char → List Char → Bool
  | [], _ => true
  | _ :: _, [] => false
  | a :: as, b :: bs => if a == b then charListLe as bs else decide (a < b)

/-- Lexicographic string comparison, `a ≤ b`. -/
def strLe (a b : String) : Bool :=
  charListLe a.data b.data

/-- Insert into a lexicographically sorted list. -/
def strInsert (x : String) : List String → List String
  | [] => [x]
  | y :: ys => if strLe x y then x :: y :: ys else y :: strInsert x ys

/-- `[...set].sort()`: sort lexicographically (insertion sort; the input is a
set, so there are no ties and stability is moot). -/
def sortStr (l : List String) : List String :=
  l.foldr strInsert []

/-- `ModuleNode#toJSON()`:
`{filename, entryFiles[sorted], children[sorted], parents[sorted]}`. -/
structure SerNode where
  filename : String
  entryFiles : List String
  children : List String
  parents : List String
deriving Repr, DecidableEq

/-- `ModuleNode#toJSON()`. -/
def nodeToJSON (d : NodeData) : SerNode :=
  { filename := d.filename
    entryFiles := sortStr d.entryFiles
    children := sortStr d.children
    parents := sortStr d.parents }

/-- The fragment of JavaScript string-to-number coercion the map keys can
meet: the empty string and (optionally sign-prefixed) decimal digit strings
are numbers, everything containing any other character — in particular every
path, which contains `/` or `.` — is `NaN` (`none`). -/
def digitsToNat (cs : List Char) : Nat :=
  cs.foldl (fun n c => n * 10 + (c.toNat - '0'.toNat)) 0

def jsToNum (s : String) : Option Int :=
  match s.data with
  | [] => some 0
  | '-' :: rest =>
    if rest ≠ [] ∧ rest.all Char.isDigit
      then some (-(Int.ofNat (digitsToNat rest)))
    else none
  | c :: rest =>
    if (c :: rest).all Char.isDigit then some (Int.ofNat (digitsToNat (c :: rest)))
    else none

/-- The comparator `([aKey], [bKey]) => aKey - bKey` of `ModuleMap#toJSON`:
string subtraction coerces both sides to numbers; if either is `NaN` the sort
treats the comparator result as `0`. -/
def jsSubCmp (a b : String) : Int :=
  match jsToNum a, jsToNum b with
  | some x, some y => x - y
  | _, _ => 0

/-- Stable insertion by a JavaScript-style comparator: `x` goes before the
first element it compares strictly less than, after everything it ties with
(`Array#sort` is stable). -/
def cmpInsert {α : Type} (cmp : α → α → Int) (x : α) : List α → List α
  | [] => [x]
  | y :: ys => if cmp x y < 0 then x :: y :: ys else y :: cmpInsert cmp x ys

/-- Stable sort by a JavaScript-style comparator. -/
def cmpSort {α : Type} (cmp : α → α → Int) (l : List α) : List α :=
  l.foldl (fun acc x => cmpInsert cmp x acc) []

/-- `ModuleMap#toJSON()`: spread the map in insertion order, sort the entries
with `([aKey], [bKey]) => aKey - bKey`, and emit `key ↦ node.toJSON()` in the
resulting order. -/
def mapToJSON (s : MapState) : List (String × SerNode) :=
  (cmpSort (fun a b => jsSubCmp a.1 b.1) s.nodes).map
    (fun kv => (kv.1, nodeToJSON (heapGetD s.heap kv.2)))

/-- `getChangedFiles()`: query the change cache over the known files, then
persist (reconcile) it. -/
def getChangedFilesModel (fec : Fec) (s : MapState) : JsSet × Fec :=
  (jsSetOfList (fec.updated (filesOf s)), fec.persist)

/-- The ancestor walk of `findAffectedFiles` (iterative DFS over `parents`,
stack top first): pop a filename, and unless already collected, collect it and
push its node's parents (`TypeError` when it has no node). -/
def ancestorWalk : Nat → MapState → List String → JsSet → Except JsErr JsSet
  | 0, _, _, _ => .error .stackOverflow
  | Nat.succ n, s, stack, affected =>
    match stack with
    | [] => .ok affected
    | p :: rest =>
      if affected.contains p then ancestorWalk n s rest affected
      else
        match mapGet s p with
        | none => .error .typeError
        | some pref =>
          ancestorWalk n s ((heapGetD s.heap pref).parents.reverse ++ rest)
            (affected ++ [p])

/-- The `nodes.reduce` of `findAffectedFiles`: per seed node, start from its
`entryFiles` (plus its own filename when it is an entry file) and union in all
ancestors through `parents`. -/
def affectedLoop (fuel : Nat) (s : MapState) :
    List Nat → JsSet → Except JsErr JsSet
  | [], acc => .ok acc
  | r :: rest, acc =>
    let nd := heapGetD s.heap r
    let aff0 := jsSetOfList
      (if s.entryFiles.contains nd.filename then nd.filename :: nd.entryFiles
       else nd.entryFiles)
    match ancestorWalk fuel s nd.parents.reverse aff0 with
    | .error e => .error e
    | .ok aff => affectedLoop fuel s rest (aff.foldl jsSetAdd acc)

/-- `findAffectedFiles({files, markChangedFiles})`: invalidate the explicitly
marked files, fall back to the change cache when no files were given, resolve
and keep the known ones, re-populate that seed set (`force = false`), then
collect ancestors per seed.  Returns the updated change cache and map state
together with `(allFiles, entryFiles)`; an empty change-set short-circuits to
two empty sets. -/
def findAffectedFilesModel (env : Env) (fec : Fec) (fuel : Nat) (s : MapState)
    (files0 markChanged0 : List String) :
    Except JsErr (Fec × MapState × JsSet × JsSet) :=
  let files := jsSetOfList files0
  let mc := jsSetOfList markChanged0
  let fec1 := if mc.isEmpty then fec else mc.foldl Fec.removeEntry fec
  let queried :=
    if files.isEmpty then getChangedFilesModel fec1 s else (files, fec1)
  let files1 := queried.1
  let fec2 := queried.2
  if files1.isEmpty then .ok (fec2, s, [], [])
  else
    let nodeRefs :=
      (((files1.map (fun f => if pathIsAbsolute f then f else pathResolve s.cwd f)).filter
          (fun f => mapHas s f)).map (fun f => (mapGet s f).getD 0))
    let startRefs := nodeRefs.foldl
      (fun acc r => if acc.contains r then acc else acc ++ [r]) ([] : List Nat)
    match populateFuel env fec2 fuel s startRefs false with
    | none => .error .stackOverflow
    | some p =>
      let s2 := p.1
      match affectedLoop fuel s2 nodeRefs [] with
      | .error e => .error e
      | .ok allFiles =>
        let entry := jsSetOfList
          (allFiles.filter (fun f => s2.entryFiles.contains f))
        .ok (fec2, s2, allFiles, entry)

/-- The bidirectional-edge invariant of the spec, as an executable check: for
all filenames `a`, `b` with nodes in the map,
`b ∈ nodes[a].children ↔ a ∈ nodes[b].parents`. -/
def bidirEdgeOk (s : MapState) : Bool :=
  s.nodes.all (fun a =>
    s.nodes.all (fun b =>
      ((heapGetD s.heap a.2).children.contains b.1)
        == ((heapGetD s.heap b.2).parents.contains a.1)))

/-- The forward half of the edge invariant for one node object: every child
filename it records has a node in the map whose `parents` contain this node's
filename. -/
def forwardEdgeOkFor (s : MapState) (r : Nat) : Prop :=
  ∀ c ∈ (heapGetD s.heap r).children,
    ∃ cr, mapGet s c = some cr ∧
      (heapGetD s.heap r).filename ∈ (heapGetD s.heap cr).parents

/-- Reference discipline: every node reference stored in the map is below the
allocation counter (true of every state the model constructs, since
references are handed out by `allocNode`). -/
def WfMapRefs (s : MapState) : Prop :=
  ∀ kv ∈ s.nodes, kv.2 < s.nextRef

/-- Reference discipline for the heap: every allocated object sits below the
allocation counter. -/
def WfHeapRefs (s : MapState) : Prop :=
  ∀ p ∈ s.heap, p.1 < s.nextRef

/-- The continuation of `deleteBody` after the child loop has returned
normally: the parents loop, the `entryFiles` removal and `super.delete`. -/
def delCont (nref : Nat) (nodeFilename filename : String) (s1 : MapState) :
    Except JsErr MapState :=
  match deleteParentLoop s1 (heapGetD s1.heap nref).parents nodeFilename with
  | .error e => .error e
  | .ok s2 =>
    .ok (mapDeleteKey { s2 with entryFiles := jsSetDelete s2.entryFiles filename }
      filename)

/-- Per-node view of a map: each key together with the data of its node
object (what `toJSON` consumes after sorting). -/
def resolvedNodes (s : MapState) : List (String × NodeData) :=
  s.nodes.map (fun kv => (kv.1, heapGetD s.heap kv.2))

/-- Turn one `toJSON` record back into the cache record `mergeFromCache`
reads (`flat-cache` stores exactly the four serialized fields). -/
def serToRecord (p : String × SerNode) : String × CacheRecord :=
  (p.1, { filename := p.2.filename, entryFiles := p.2.entryFiles,
          children := p.2.children, parents := p.2.parents })

/-- Round trip of claim C8: serialize with `toJSON`, write the records to the
module-map cache, and load a fresh map from that cache via
`mergeFromCache({destructive: true})`. -/
def reloadFromJSON (s : MapState) : MapState :=
  mergeFromCacheModel
    { heap := [], nextRef := 0, nodes := [], entryFiles := [], cwd := s.cwd }
    ((mapToJSON s).map serToRecord) true

/- Concrete fixtures used by the scenario theorems and counterexamples. -/

/-- A change cache on which every file reports as changed (a cold cache). -/
def coldFec : Fec := { base := { changed := fun _ => true }, removed := [] }

/-- A change cache on which no file reports as changed. -/
def quietFec : Fec := { base := { changed := fun _ => false }, removed := [] }

/-- Extractor of scenario 1: `/p/a.js` imports `/p/b.js`; `/p/b.js` imports
nothing. -/
def envAtoB : Env :=
  { deps := fun f => if f = "/p/a.js" then ["/p/b.js"] else [] }

/-- Extractor that finds no dependencies for any file. -/
def envNone : Env := { deps := fun _ => [] }

/-- A persisted graph cache holding the edge `/p/a.js → /p/b.js` (each record
as a previous `save` would have written it). -/
def cacheAtoB : List (String × CacheRecord) :=
  [("/p/a.js", { filename := "/p/a.js", entryFiles := [], children := ["/p/b.js"],
                 parents := [] }),
   ("/p/b.js", { filename := "/p/b.js", entryFiles := ["x"], children := [],
                 parents := ["/p/a.js"] })]

/-- Two-node cycle: `/p/a.js` and `/p/b.js` import each other, and each is
the other's only parent. -/
def cycleState : MapState :=
  { heap := [(0, { filename := "/p/a.js", entryFiles := [], parents := ["/p/b.js"],
                   children := ["/p/b.js"] }),
             (1, { filename := "/p/b.js", entryFiles := [], parents := ["/p/a.js"],
                   children := ["/p/a.js"] })]
    nextRef := 2
    nodes := [("/p/a.js", 0), ("/p/b.js", 1)]
    entryFiles := []
    cwd := "/p" }

/-- `cycleState` after `delete("/p/a.js")` has emptied `b`'s parents. -/
def cycleState1 : MapState :=
  { cycleState with
    heap := [(0, { filename := "/p/a.js", entryFiles := [], parents := ["/p/b.js"],
                   children := ["/p/b.js"] }),
             (1, { filename := "/p/b.js", entryFiles := [], parents := [],
                   children := ["/p/a.js"] })] }

/-- `cycleState` once both parent sets have been emptied: from here the
cascade ping-pongs between the two nodes without changing the state. -/
def cycleState2 : MapState :=
  { cycleState with
    heap := [(0, { filename := "/p/a.js", entryFiles := [], parents := [],
                   children := ["/p/b.js"] }),
             (1, { filename := "/p/b.js", entryFiles := [], parents := [],
                   children := ["/p/a.js"] })] }

/-- A map whose single node lists a child that has no node of its own (as a
stale persisted cache can produce). -/
def danglingState : MapState :=
  { heap := [(0, { filename := "/p/a.js", entryFiles := [], parents := [],
                   children := ["/p/b.js"] })]
    nextRef := 1
    nodes := [("/p/a.js", 0)]
    entryFiles := []
    cwd := "/p" }

/-- A two-node graph `/p/a.js → /p/b.js` with its back edge, used as a start
state for populate counterexamples. -/
def twoNodeState : MapState :=
  { heap := [(0, { filename := "/p/a.js", entryFiles := [], parents := [],
                   children := ["/p/b.js"] }),
             (1, { filename := "/p/b.js", entryFiles := [], parents := ["/p/a.js"],
                   children := [] })]
    nextRef := 2
    nodes := [("/p/a.js", 0), ("/p/b.js", 1)]
    entryFiles := []
    cwd := "/p" }

/-- A map built by inserting `/p/b.js` first and `/p/a.js` second (the
insertion order every `Map` iteration reproduces). -/
def insertionOrderState : MapState :=
  let s0 : MapState :=
    { heap := [], nextRef := 0, nodes := [], entryFiles := [], cwd := "/p" }
  let a1 := allocNode s0 "/p/b.js" {}
  let s1 := mapSetState a1.2 "/p/b.js" a1.1
  let a2 := allocNode s1 "/p/a.js" { entryFiles := ["/p/x.js", "/p/c.js"] }
  mapSetState a2.2 "/p/a.js" a2.1

/-! Basic lemmas about the JavaScript collection models -/

theorem mem_jsSetAdd {s : JsSet} {x y : String} :
    x ∈ jsSetAdd s y ↔ x ∈ s ∨ x = y := by
  unfold jsSetAdd
  by_cases h : y ∈ s
  · simp only [if_pos h]
    constructor
    · exact Or.inl
    · rintro (h1 | rfl)
      · exact h1
      · exact h
  · simp [if_neg h]

theorem self_mem_jsSetAdd (s : JsSet) (y : String) : y ∈ jsSetAdd s y :=
  mem_jsSetAdd.mpr (Or.inr rfl)

theorem mem_of_mem_jsSetAdd_base {s : JsSet} {x y : String} (h : x ∈ s) :
    x ∈ jsSetAdd s y :=
  mem_jsSetAdd.mpr (Or.inl h)

theorem nodup_jsSetAdd {s : JsSet} (h : s.Nodup) (y : String) :
    (jsSetAdd s y).Nodup := by
  unfold jsSetAdd
  by_cases hy : y ∈ s
  · simpa [if_pos hy] using h
  · simp only [if_neg hy]
    rw [← List.concat_eq_append]
    exact List.Nodup.concat hy h

theorem mem_foldl_jsSetAdd (l : List String) :
    ∀ (acc : JsSet) (x : String),
      x ∈ l.foldl jsSetAdd acc ↔ x ∈ acc ∨ x ∈ l := by
  induction l with
  | nil => intro acc x; simp
  | cons y ys ih =>
    intro acc x
    simp only [List.foldl_cons, ih, mem_jsSetAdd, List.mem_cons]
    tauto

theorem mem_jsSetOfList {l : List String} {x : String} :
    x ∈ jsSetOfList l ↔ x ∈ l := by
  unfold jsSetOfList
  simp [mem_foldl_jsSetAdd]

theorem nodup_foldl_jsSetAdd (l : List String) :
    ∀ (acc : JsSet), acc.Nodup → (l.foldl jsSetAdd acc).Nodup := by
  induction l with
  | nil => intro acc h; simpa using h
  | cons y ys ih =>
    intro acc h
    exact ih _ (nodup_jsSetAdd h y)

theorem nodup_jsSetOfList (l : List String) : (jsSetOfList l).Nodup :=
  nodup_foldl_jsSetAdd l [] List.nodup_nil

theorem foldl_jsSetAdd_of_disjoint (l : List String) :
    ∀ (acc : JsSet), (∀ x ∈ l, x ∉ acc) → l.Nodup →
      l.foldl jsSetAdd acc = acc ++ l := by
  induction l with
  | nil => intro acc _ _; simp
  | cons y ys ih =>
    intro acc hdisj hnd
    have hy : y ∉ acc := hdisj y (List.mem_cons_self y ys)
    have h1 : jsSetAdd acc y = acc ++ [y] := by
      unfold jsSetAdd; simp [if_neg hy]
    simp only [List.foldl_cons, h1]
    rw [ih (acc ++ [y])]
    · simp
    · intro x hx
      simp only [List.mem_append, List.mem_singleton]
      rintro (hxa | rfl)
      · exact hdisj x (List.mem_cons_of_mem _ hx) hxa
      · exact (List.nodup_cons.mp hnd).1 hx
    · exact (List.nodup_cons.mp hnd).2

theorem jsSetOfList_eq_self {l : List String} (h : l.Nodup) :
    jsSetOfList l = l := by
  unfold jsSetOfList
  simpa using foldl_jsSetAdd_of_disjoint l [] (by simp) h

theorem heapGetD_heapSet (h : Heap) (r : Nat) (d : NodeData) (r' : Nat) :
    heapGetD (heapSet h r d) r' = if r' = r then d else heapGetD h r' := by
  induction h with
  | nil =>
    by_cases hrr : r' = r
    · subst hrr; simp [heapSet, heapGetD]
    · simp only [heapSet, heapGetD, List.find?_cons, List.find?_nil,
        if_neg hrr]
      rw [show ((r, d).1 == r') = false by
        simp only [beq_eq_false_iff_ne, ne_eq]
        exact fun hc => hrr hc.symm]
  | cons p t ih =>
    obtain ⟨r0, d0⟩ := p
    by_cases h0 : r0 = r
    · subst h0
      by_cases hrr : r' = r0
      · subst hrr; simp [heapSet, heapGetD]
      · simp [heapSet, heapGetD, hrr, Ne.symm hrr]
    · have h0b : (r0 == r) = false := by simp [h0]
      by_cases hrr : r' = r0
      · subst hrr
        simp [heapSet, h0b, heapGetD, if_neg (by simpa using h0 : ¬ r' = r)]
      · have hrb : (r0 == r') = false := by
          simp [Ne.symm hrr]
        simp only [heapSet, h0b, Bool.false_eq_true, if_false, heapGetD,
          List.find?_cons, hrb] at ih ⊢
        exact ih

theorem assocSet_find (l : List (String × Nat)) (k : String) (v : Nat)
    (k' : String) :
    ((assocSet l k v).find? (fun p => p.1 == k')) =
      if k' = k then some (k, v) else l.find? (fun p => p.1 == k') := by
  induction l with
  | nil =>
    by_cases hk : k' = k
    · subst hk; simp [assocSet]
    · simp [assocSet, if_neg hk, hk]
      intro hc
      exact absurd hc.symm hk
  | cons p t ih =>
    obtain ⟨a, b⟩ := p
    by_cases hak : a = k
    · subst hak
      by_cases hk : k' = a
      · subst hk; simp [assocSet]
      · simp [assocSet, heapGetD, hk, Ne.symm hk]
    · have hab : (a == k) = false := by simp [hak]
      by_cases hk : k' = a
      · subst hk
        have : ¬ k' = k := hak
        simp [assocSet, hab, if_neg this]
      · have hb : (a == k') = false := by simp [Ne.symm hk]
        simp only [assocSet, hab, Bool.false_eq_true, if_false,
          List.find?_cons, hb] at ih ⊢
        exact ih

theorem mapGet_mapSetState (s : MapState) (k : String) (v : Nat) (k' : String) :
    mapGet (mapSetState s k v) k' = if k' = k then some v else mapGet s k' := by
  unfold mapGet mapSetState
  simp only [assocSet_find]
  by_cases hk : k' = k
  · simp [hk]
  · simp [hk]

/-! Scenario and counterexample theorems -/

/-- C7: cold start with one entry file `/p/a.js` whose extractor result is
`{/p/b.js}`, `/p/b.js` having no dependencies: after initialization the map
has exactly the two nodes, with `a.children = {b}`, `a.parents = ∅`,
`a.entryFiles = ∅` (the entry file's own `entryFiles` never contains itself),
`b.children = ∅`, `b.parents = {a}`, `b.entryFiles = {a}`. -/
theorem c7_cold_start_scenario :
    initState envAtoB coldFec [] ["/p/a.js"] "/p" 10 =
      some
        { heap := [(0, { filename := "/p/a.js", entryFiles := [], parents := [],
                         children := ["/p/b.js"] }),
                   (1, { filename := "/p/b.js", entryFiles := ["/p/a.js"],
                         parents := ["/p/a.js"], children := [] })]
          nextRef := 2
          nodes := [("/p/a.js", 0), ("/p/b.js", 1)]
          entryFiles := ["/p/a.js"]
          cwd := "/p" } := by
  rfl

/-- C4 (failing input): with `/p/b.js` inserted before `/p/a.js`, the
comparator `([aKey], [bKey]) => aKey - bKey` of `ModuleMap#toJSON` is `NaN`
on path keys (treated as `0`), so the top-level keys come out in insertion
order `b, a`, not in lexicographic order `a, b`; the three per-node arrays
are sorted, as witnessed by `/p/a.js`'s `entryFiles`. -/
theorem c4_toJSON_keys_not_sorted :
    (mapToJSON insertionOrderState).map Prod.fst = ["/p/b.js", "/p/a.js"]
      ∧ sortStr ((mapToJSON insertionOrderState).map Prod.fst) =
          ["/p/a.js", "/p/b.js"]
      ∧ (mapToJSON insertionOrderState).map (fun kv => kv.2.entryFiles) =
          [[], ["/p/c.js", "/p/x.js"]] := by
  refine ⟨rfl, ?_, rfl⟩
  rfl

/-- C3 (failing input): deleting `/p/a.js` when its `children` set lists
`/p/b.js` but the map has no node for `/p/b.js` throws a `TypeError`
(destructuring `this.get(childFilename)` of `undefined`) instead of silently
skipping the missing filename. -/
theorem c3_delete_dangling_child_type_error :
    deleteFuel 100 danglingState "/p/a.js" = .error .typeError := by
  rfl

/-- C1 (counterexample): initializing over a persisted graph containing the
edge `/p/a.js → /p/b.js` when the extractor now reports no dependencies for
`/p/a.js` leaves `/p/a.js ∈ b.parents` while `b ∉ a.children`: the
bidirectional-edge invariant does not hold after the public initialization
completes. -/
theorem c1_bidirectional_counterexample :
    (initState envNone coldFec cacheAtoB [] "/p" 10).map bidirEdgeOk =
      some false := by
  rfl

/-- C6 (counterexample): `_populate` called with start set `{b, a}` where
`/p/b.js` is a child of `/p/a.js` pops `a` first, re-discovers `b` (which was
never marked seen when the start frames were pushed) and pushes it again: the
loop body runs for node `b` twice in one call, as the instrumented visit list
`[a, b, b]` records. -/
theorem c6_double_expansion_counterexample :
    (populateFuel envAtoB coldFec 10 twoNodeState [1, 0] false).map
      (fun p => p.2) = some [0, 1, 1] := by
  rfl

/-- C5 (counterexample): `addEntryFile("rel.js")` on a map with
`cwd = "/p"` inserts the string `rel.js` itself into `entryFiles` — the
filename is not resolved against `cwd` (the node is also keyed `rel.js`, and
`/p/rel.js` is known to neither `entryFiles` nor the map). -/
theorem c5_resolution_counterexample :
    (addEntryFileModel envNone quietFec 10 twoNodeState "rel.js").map
      (fun s => (s.entryFiles, mapHas s (pathResolve s.cwd "rel.js"),
        mapHas s "rel.js")) = some (["rel.js"], false, true) := by
  rfl

/-- C10: a `ModuleNode` stores fresh sets built from the element sequences of
the collections passed to the constructor or assigned through the setters:
duplicates collapse (the stored lists are duplicate-free) and membership is
exactly membership in the passed collection.  The stored sets are values
computed from the collection's elements at call time, so no later change to
the source collection can be observed through the node. -/
theorem c10_node_fresh_sets :
    ∀ (f : String) (e c p : List String) (x : String) (d : NodeData)
      (v : List String),
      ((NodeData.create f ⟨e, c, p⟩).children.Nodup
        ∧ ((NodeData.create f ⟨e, c, p⟩).children.contains x = c.contains x))
      ∧ ((NodeData.create f ⟨e, c, p⟩).parents.Nodup
        ∧ ((NodeData.create f ⟨e, c, p⟩).parents.contains x = p.contains x))
      ∧ ((NodeData.create f ⟨e, c, p⟩).entryFiles.Nodup
        ∧ ((NodeData.create f ⟨e, c, p⟩).entryFiles.contains x
            = e.contains x))
      ∧ ((d.setChildren v).children.Nodup
        ∧ ((d.setChildren v).children.contains x = v.contains x))
      ∧ ((d.setParents v).parents.Nodup
        ∧ ((d.setParents v).parents.contains x = v.contains x))
      ∧ ((d.setEntryFiles v).entryFiles.Nodup
        ∧ ((d.setEntryFiles v).entryFiles.contains x = v.contains x)) := by
  intro f e c p x d v
  have hmem : ∀ (l : List String),
      (jsSetOfList l).contains x = l.contains x := by
    intro l
    by_cases hx : x ∈ l
    · rw [show l.contains x = true from List.elem_eq_true_of_mem hx,
        show (jsSetOfList l).contains x = true from
          List.elem_eq_true_of_mem (mem_jsSetOfList.mpr hx)]
    · have h2 : x ∉ jsSetOfList l := fun hc => hx (mem_jsSetOfList.mp hc)
      rw [show l.contains x = false by simpa using hx,
        show (jsSetOfList l).contains x = false by simpa using h2]
  refine ⟨⟨nodup_jsSetOfList c, hmem c⟩, ⟨nodup_jsSetOfList p, hmem p⟩,
    ⟨nodup_jsSetOfList e, hmem e⟩, ⟨nodup_jsSetOfList v, hmem v⟩,
    ⟨nodup_jsSetOfList v, hmem v⟩, ⟨nodup_jsSetOfList v, hmem v⟩⟩

/-- C9: `findAffectedFiles` called with no files and no `markChangedFiles`
over a change cache that reports no updated files returns empty `entryFiles`
and `allFiles` sets (leaving the map untouched and reconciling the change
cache, as `getChangedFiles` does). -/
theorem c9_no_changes_empty_result (env : Env) (fec : Fec) (fuel : Nat)
    (s : MapState) (h : fec.updated (filesOf s) = []) :
    findAffectedFilesModel env fec fuel s [] [] =
      .ok (fec.persist, s, [], []) := by
  unfold findAffectedFilesModel getChangedFilesModel
  simp [jsSetOfList, h]

/-- Witness for C9 at a concrete map and change cache. -/
theorem c9_no_changes_empty_result_witness :
    quietFec.updated (filesOf twoNodeState) = [] ∧
      findAffectedFilesModel envNone quietFec 5 twoNodeState [] [] =
        .ok (quietFec.persist, twoNodeState, [], []) :=
  ⟨rfl, c9_no_changes_empty_result envNone quietFec 5 twoNodeState rfl⟩

/-! Structural lemmas about one populate child step -/

theorem childStep_entryFiles (e : Option Nat) (pf : String)
    (acc : MapState × List Frame × List Nat) (c : String) :
    (childStep e pf acc c).1.entryFiles = acc.1.entryFiles := by
  obtain ⟨s, stack, seen⟩ := acc
  cases hm : mapGet s c <;> cases e <;>
    simp only [childStep, hm, allocNode, mapSetState] <;> split <;> rfl

theorem childStep_cwd (e : Option Nat) (pf : String)
    (acc : MapState × List Frame × List Nat) (c : String) :
    (childStep e pf acc c).1.cwd = acc.1.cwd := by
  obtain ⟨s, stack, seen⟩ := acc
  cases hm : mapGet s c <;> cases e <;>
    simp only [childStep, hm, allocNode, mapSetState] <;> split <;> rfl

theorem childStep_nextRef_le (e : Option Nat) (pf : String)
    (acc : MapState × List Frame × List Nat) (c : String) :
    acc.1.nextRef ≤ (childStep e pf acc c).1.nextRef := by
  obtain ⟨s, stack, seen⟩ := acc
  cases hm : mapGet s c <;> cases e <;>
    simp only [childStep, hm, allocNode, mapSetState] <;> split <;>
    simp

/-- `mapGet` looks only at the bindings, so states sharing `nodes` agree. -/
theorem mapGet_mapSetState_nodesEq {s' s : MapState} (hn : s'.nodes = s.nodes)
    (c : String) (cref : Nat) (k : String) :
    mapGet (mapSetState s' c cref) k = if k = c then some cref else mapGet s k := by
  rw [mapGet_mapSetState]
  by_cases hk : k = c
  · rw [if_pos hk, if_pos hk]
  · rw [if_neg hk, if_neg hk]
    unfold mapGet
    rw [hn]

/-- What the child step does to the map bindings: it binds `c` (to its
existing reference, or to the fresh one) and leaves every other key alone. -/
theorem childStep_mapGet (e : Option Nat) (pf : String) (s : MapState)
    (stack : List Frame) (seen : List Nat) (c k : String) :
    mapGet (childStep e pf (s, stack, seen) c).1 k =
      if k = c then
        some (match mapGet s c with | some r => r | none => s.nextRef)
      else mapGet s k := by
  cases hm : mapGet s c <;> cases e <;>
    simp only [childStep, hm, allocNode] <;> split <;>
    exact mapGet_mapSetState_nodesEq rfl c _ k

/-- Updating a node object with data that keeps its `children` and
`filename` and only grows its `parents` preserves those facts for every
reference. -/
theorem heapGetD_heapSet_benign (h : Heap) (t : Nat) (d : NodeData)
    (hch : d.children = (heapGetD h t).children)
    (hfn : d.filename = (heapGetD h t).filename)
    (hpar : ∀ x ∈ (heapGetD h t).parents, x ∈ d.parents) (r : Nat) :
    (heapGetD (heapSet h t d) r).children = (heapGetD h r).children
      ∧ (heapGetD (heapSet h t d) r).filename = (heapGetD h r).filename
      ∧ ∀ x ∈ (heapGetD h r).parents, x ∈ (heapGetD (heapSet h t d) r).parents := by
  rw [heapGetD_heapSet]
  by_cases hrt : r = t
  · subst hrt
    rw [if_pos rfl]
    exact ⟨hch, hfn, hpar⟩
  · rw [if_neg hrt]
    exact ⟨rfl, rfl, fun x hx => hx⟩

/-- Below the allocation counter, a child step never changes a node's
`children` or `filename`, and only ever grows its `parents`. -/
theorem childStep_heap_below (e : Option Nat) (pf : String) (s : MapState)
    (stack : List Frame) (seen : List Nat) (c : String) {r : Nat}
    (hr : r < s.nextRef) :
    (heapGetD (childStep e pf (s, stack, seen) c).1.heap r).children
        = (heapGetD s.heap r).children
      ∧ (heapGetD (childStep e pf (s, stack, seen) c).1.heap r).filename
        = (heapGetD s.heap r).filename
      ∧ ∀ x ∈ (heapGetD s.heap r).parents,
          x ∈ (heapGetD (childStep e pf (s, stack, seen) c).1.heap r).parents := by
  have hne : r ≠ s.nextRef := Nat.ne_of_lt hr
  cases hm : mapGet s c with
  | some cref =>
    cases e with
    | none =>
      simp only [childStep, hm, allocNode]
      split <;>
        (refine heapGetD_heapSet_benign s.heap cref ?_ ?_ ?_ ?_ r <;>
          first
            | rfl
            | exact fun x hx => mem_of_mem_jsSetAdd_base hx)
    | some en =>
      simp only [childStep, hm, allocNode]
      split <;>
        (refine heapGetD_heapSet_benign s.heap cref ?_ ?_ ?_ ?_ r <;>
          first
            | rfl
            | exact fun x hx => mem_of_mem_jsSetAdd_base hx)
  | none =>
    have halloc : ∀ d' : NodeData,
        heapGetD (heapSet (heapSet s.heap s.nextRef
          (NodeData.create c {})) s.nextRef d') r = heapGetD s.heap r := by
      intro d'
      rw [heapGetD_heapSet, if_neg hne, heapGetD_heapSet, if_neg hne]
    cases e with
    | none =>
      simp only [childStep, hm, allocNode]
      split <;>
        (dsimp only [mapSetState]
         exact ⟨by rw [halloc], by rw [halloc], fun x hx => by rw [halloc]; exact hx⟩)
    | some en =>
      simp only [childStep, hm, allocNode]
      split <;>
        (dsimp only [mapSetState]
         exact ⟨by rw [halloc], by rw [halloc], fun x hx => by rw [halloc]; exact hx⟩)

/-- Everything a child step (and hence the whole child loop) guarantees
between two states: the allocator only moves forward, the entry-file set and
working directory are untouched, present map bindings survive, and below the
starting allocation counter every node keeps its `children` and `filename`
while its `parents` only grow. -/
def StepsTo (s t : MapState) : Prop :=
  s.nextRef ≤ t.nextRef
    ∧ t.entryFiles = s.entryFiles
    ∧ t.cwd = s.cwd
    ∧ (∀ k v, mapGet s k = some v → mapGet t k = some v)
    ∧ ∀ r, r < s.nextRef →
        (heapGetD t.heap r).children = (heapGetD s.heap r).children
          ∧ (heapGetD t.heap r).filename = (heapGetD s.heap r).filename
          ∧ ∀ x ∈ (heapGetD s.heap r).parents, x ∈ (heapGetD t.heap r).parents

theorem stepsTo_self (s : MapState) : StepsTo s s :=
  ⟨Nat.le_refl _, rfl, rfl, fun _ _ h => h, fun _ _ => ⟨rfl, rfl, fun _ hx => hx⟩⟩

theorem StepsTo.trans {s t u : MapState} (h1 : StepsTo s t) (h2 : StepsTo t u) :
    StepsTo s u := by
  obtain ⟨n1, e1, c1, m1, h1⟩ := h1
  obtain ⟨n2, e2, c2, m2, h2⟩ := h2
  refine ⟨Nat.le_trans n1 n2, e2.trans e1, c2.trans c1,
    fun k v hk => m2 k v (m1 k v hk), fun r hr => ?_⟩
  obtain ⟨ch1, fn1, pa1⟩ := h1 r hr
  obtain ⟨ch2, fn2, pa2⟩ := h2 r (Nat.lt_of_lt_of_le hr n1)
  exact ⟨ch2.trans ch1, fn2.trans fn1, fun x hx => pa2 x (pa1 x hx)⟩

/-- Present bindings survive the child step. -/
theorem childStep_mapGet_mono (e : Option Nat) (pf : String)
    (acc : MapState × List Frame × List Nat) (c : String)
    {k : String} {v : Nat} (h : mapGet acc.1 k = some v) :
    mapGet (childStep e pf acc c).1 k = some v := by
  obtain ⟨s, stack, seen⟩ := acc
  rw [childStep_mapGet]
  by_cases hk : k = c
  · subst hk
    rw [h] at *
    rw [if_pos rfl, h]
  · rw [if_neg hk]; exact h

theorem childStep_stepsTo (e : Option Nat) (pf : String)
    (acc : MapState × List Frame × List Nat) (c : String) :
    StepsTo acc.1 (childStep e pf acc c).1 := by
  obtain ⟨s, stack, seen⟩ := acc
  refine ⟨childStep_nextRef_le e pf (s, stack, seen) c,
    childStep_entryFiles e pf (s, stack, seen) c,
    childStep_cwd e pf (s, stack, seen) c,
    fun k v hk => childStep_mapGet_mono e pf (s, stack, seen) c hk,
    fun r hr => childStep_heap_below e pf s stack seen c hr⟩

theorem foldl_childStep_stepsTo (e : Option Nat) (pf : String)
    (cs : List String) :
    ∀ (acc : MapState × List Frame × List Nat),
      StepsTo acc.1 (cs.foldl (childStep e pf) acc).1 := by
  induction cs with
  | nil => intro acc; exact stepsTo_self _
  | cons c rest ih =>
    intro acc
    exact StepsTo.trans (childStep_stepsTo e pf acc c) (ih (childStep e pf acc c))

/-- Membership in an updated association list. -/
theorem mem_assocSet {l : List (String × Nat)} {k : String} {v : Nat}
    {p : String × Nat} (h : p ∈ assocSet l k v) : p ∈ l ∨ p = (k, v) := by
  induction l with
  | nil =>
    simp only [assocSet, List.mem_singleton] at h
    exact Or.inr h
  | cons q t ih =>
    obtain ⟨a, b⟩ := q
    by_cases hak : a = k
    · subst hak
      simp only [assocSet, beq_self_eq_true, if_true] at h
      rcases List.mem_cons.mp h with h1 | h1
      · exact Or.inr h1
      · exact Or.inl (List.mem_cons_of_mem _ h1)
    · have : (a == k) = false := by simp [hak]
      simp only [assocSet, this, Bool.false_eq_true, if_false] at h
      rcases List.mem_cons.mp h with h1 | h1
      · exact Or.inl (h1 ▸ List.mem_cons_self _ _)
      · rcases ih h1 with h2 | h2
        · exact Or.inl (List.mem_cons_of_mem _ h2)
        · exact Or.inr h2

theorem childStep_wfMapRefs (e : Option Nat) (pf : String)
    (acc : MapState × List Frame × List Nat) (c : String)
    (hwf : WfMapRefs acc.1) : WfMapRefs (childStep e pf acc c).1 := by
  obtain ⟨s, stack, seen⟩ := acc
  have hle := childStep_nextRef_le e pf (s, stack, seen) c
  intro kv hkv
  cases hm : mapGet s c with
  | some cref =>
    have hcref : cref < s.nextRef := by
      unfold mapGet at hm
      cases hf : s.nodes.find? (fun p => p.1 == c) with
      | none => rw [hf] at hm; cases hm
      | some p =>
        rw [hf] at hm
        cases hm
        exact hwf p (List.mem_of_find?_eq_some hf)
    have hnodes : (childStep e pf (s, stack, seen) c).1.nodes
        = assocSet s.nodes c cref := by
      cases e <;> simp only [childStep, hm, allocNode] <;> split <;> rfl
    have hnr : (childStep e pf (s, stack, seen) c).1.nextRef = s.nextRef := by
      cases e <;> simp only [childStep, hm, allocNode] <;> split <;> rfl
    rw [hnodes] at hkv
    rw [hnr]
    rcases mem_assocSet hkv with h1 | h1
    · exact hwf kv h1
    · rw [h1]; exact hcref
  | none =>
    have hnodes : (childStep e pf (s, stack, seen) c).1.nodes
        = assocSet s.nodes c s.nextRef := by
      cases e <;> simp only [childStep, hm, allocNode] <;> split <;> rfl
    have hnr : (childStep e pf (s, stack, seen) c).1.nextRef = s.nextRef + 1 := by
      cases e <;> simp only [childStep, hm, allocNode] <;> split <;> rfl
    rw [hnodes] at hkv
    rw [hnr]
    rcases mem_assocSet hkv with h1 | h1
    · exact Nat.lt_succ_of_lt (hwf kv h1)
    · rw [h1]; exact Nat.lt_succ_self _

theorem foldl_childStep_wfMapRefs (e : Option Nat) (pf : String)
    (cs : List String) :
    ∀ (acc : MapState × List Frame × List Nat), WfMapRefs acc.1 →
      WfMapRefs (cs.foldl (childStep e pf) acc).1 := by
  induction cs with
  | nil => intro acc h; exact h
  | cons c rest ih =>
    intro acc h
    exact ih _ (childStep_wfMapRefs e pf acc c h)

theorem heapGetD_heapSet_self (h : Heap) (r : Nat) (d : NodeData) :
    heapGetD (heapSet h r d) r = d := by
  rw [heapGetD_heapSet, if_pos rfl]

/-- One child step installs its child: afterwards the child filename is bound
to a live reference whose `parents` contain the parent filename. -/
theorem childStep_establishes (e : Option Nat) (pf : String) (s : MapState)
    (stack : List Frame) (seen : List Nat) (c : String)
    (hwf : WfMapRefs s) :
    ∃ cr, mapGet (childStep e pf (s, stack, seen) c).1 c = some cr
      ∧ pf ∈ (heapGetD (childStep e pf (s, stack, seen) c).1.heap cr).parents
      ∧ cr < (childStep e pf (s, stack, seen) c).1.nextRef := by
  cases hm : mapGet s c with
  | some cref =>
    refine ⟨cref, ?_, ?_, ?_⟩
    · rw [childStep_mapGet, if_pos rfl, hm]
    · cases e <;> simp only [childStep, hm, allocNode] <;> split <;>
        (dsimp only [mapSetState]
         rw [heapGetD_heapSet_self]
         exact self_mem_jsSetAdd _ pf)
    · have hcref : cref < s.nextRef := by
        unfold mapGet at hm
        cases hf : s.nodes.find? (fun p => p.1 == c) with
        | none => rw [hf] at hm; cases hm
        | some p =>
          rw [hf] at hm
          cases hm
          exact hwf p (List.mem_of_find?_eq_some hf)
      exact Nat.lt_of_lt_of_le hcref (childStep_nextRef_le e pf (s, stack, seen) c)
  | none =>
    refine ⟨s.nextRef, ?_, ?_, ?_⟩
    · rw [childStep_mapGet, if_pos rfl, hm]
    · cases e <;> simp only [childStep, hm, allocNode] <;> split <;>
        (dsimp only [mapSetState]
         rw [heapGetD_heapSet_self]
         exact self_mem_jsSetAdd _ pf)
    · have hnr : (childStep e pf (s, stack, seen) c).1.nextRef = s.nextRef + 1 := by
        cases e <;> simp only [childStep, hm, allocNode] <;> split <;> rfl
      rw [hnr]
      exact Nat.lt_succ_self _

/-- The whole child loop installs every one of its children with the parent
back edge recorded. -/
theorem foldl_childStep_establishes (e : Option Nat) (pf : String)
    (cs : List String) :
    ∀ (acc : MapState × List Frame × List Nat), WfMapRefs acc.1 →
      ∀ c ∈ cs,
        ∃ cr, mapGet (cs.foldl (childStep e pf) acc).1 c = some cr
          ∧ pf ∈ (heapGetD (cs.foldl (childStep e pf) acc).1.heap cr).parents := by
  induction cs with
  | nil => intro acc _ c hc; cases hc
  | cons c0 rest ih =>
    intro acc hwf c hc
    rcases List.mem_cons.mp hc with rfl | hcr
    · obtain ⟨s, stack, seen⟩ := acc
      obtain ⟨cr, hget, hpar, hlt⟩ :=
        childStep_establishes e pf s stack seen c hwf
      obtain ⟨_, _, _, hmono, hbelow⟩ :=
        foldl_childStep_stepsTo e pf rest (childStep e pf (s, stack, seen) c)
      refine ⟨cr, ?_, ?_⟩
      · simp only [List.foldl_cons]
        exact hmono c cr hget
      · simp only [List.foldl_cons]
        exact (hbelow cr hlt).2.2 pf hpar
    · simp only [List.foldl_cons]
      exact ih _ (childStep_wfMapRefs e pf acc c0 hwf) c hcr

/-- Across a whole populate run the entry-file set and working directory are
untouched and present map bindings survive (`_populate` only ever adds or
refreshes bindings). -/
theorem populateGo_weak (env : Env) (fec : Fec) (force : Bool) :
    ∀ (fuel : Nat) (s : MapState) (stack : List Frame) (seen visited : List Nat)
      (s' : MapState) (vis : List Nat),
      populateGo env fec force fuel s stack seen visited = some (s', vis) →
      s'.entryFiles = s.entryFiles ∧ s'.cwd = s.cwd
        ∧ ∀ k v, mapGet s k = some v → mapGet s' k = some v := by
  intro fuel
  induction fuel with
  | zero => intro s stack seen visited s' vis h; cases h
  | succ n ih =>
    intro s stack seen visited s' vis h
    cases stack with
    | nil =>
      rw [show populateGo env fec force (n + 1) s [] seen visited
        = some (s, visited) from rfl] at h
      cases h
      exact ⟨rfl, rfl, fun k v hk => hk⟩
    | cons fr rest =>
      simp only [populateGo] at h
      by_cases hf :
          (force || fec.hasChanged (heapGetD s.heap fr.node).filename) = true
      · simp only [hf, if_true] at h
        obtain ⟨he, hc, hm⟩ := ih _ _ _ _ _ _ h
        obtain ⟨_, he2, hc2, hm2, _⟩ :=
          foldl_childStep_stepsTo fr.entryNode (heapGetD s.heap fr.node).filename
            (findDependencies env (heapGetD s.heap fr.node).filename)
            (writeChildren s fr.node
              (findDependencies env (heapGetD s.heap fr.node).filename),
             rest, if fr.node ∈ seen then seen else seen ++ [fr.node])
        exact ⟨he.trans he2, hc.trans hc2,
          fun k v hk => hm k v (hm2 k v hk)⟩
      · simp only [hf, Bool.false_eq_true, if_false] at h
        obtain ⟨he, hc, hm⟩ := ih _ _ _ _ _ _ h
        obtain ⟨_, he2, hc2, hm2, _⟩ :=
          foldl_childStep_stepsTo fr.entryNode (heapGetD s.heap fr.node).filename
            (heapGetD s.heap fr.node).children
            (s, rest, if fr.node ∈ seen then seen else seen ++ [fr.node])
        exact ⟨he.trans he2, hc.trans hc2,
          fun k v hk => hm k v (hm2 k v hk)⟩

/-- C5 (amended): `addEntryFile(F)` inserts `F` into `entryFiles` exactly as
given — no resolution against `cwd` happens, because the method calls
`this.entryFiles.add(filename)` directly instead of going through the
resolving `entryFiles` setter.  When the map already has a node for `F`, only
the entry-file membership changes; when it does not, a node keyed by the
unresolved `F` is created (at the next fresh reference) and the populator is
run on just that node. -/
theorem c5_addEntryFile_unresolved (env : Env) (fec : Fec) (fuel : Nat)
    (s : MapState) (filename : String) (s' : MapState)
    (h : addEntryFileModel env fec fuel s filename = some s') :
    filename ∈ s'.entryFiles
      ∧ (mapHas s filename = true →
          s' = { s with entryFiles := jsSetAdd s.entryFiles filename })
      ∧ (mapHas s filename = false → mapGet s' filename = some s.nextRef) := by
  unfold addEntryFileModel at h
  dsimp only at h
  rw [show mapGet { s with entryFiles := jsSetAdd s.entryFiles filename } filename
    = mapGet s filename from rfl] at h
  cases hm : mapGet s filename with
  | some r =>
    rw [hm] at h
    cases h
    refine ⟨self_mem_jsSetAdd _ _, fun _ => rfl, fun hff => ?_⟩
    simp [mapHas, hm] at hff
  | none =>
    rw [hm] at h
    cases hpop : populateFuel env fec fuel
        (mapSetState (allocNode { s with entryFiles := jsSetAdd s.entryFiles filename }
          filename {}).2 filename
          (allocNode { s with entryFiles := jsSetAdd s.entryFiles filename }
            filename {}).1)
        [(allocNode { s with entryFiles := jsSetAdd s.entryFiles filename }
          filename {}).1] false with
    | none =>
      rw [hpop] at h
      cases h
    | some p =>
      rw [hpop] at h
      cases h
      unfold populateFuel at hpop
      obtain ⟨he, _, hmono⟩ := populateGo_weak env fec false fuel _ _ _ _ _ _ hpop
      constructor
      · rw [show p.1.entryFiles = jsSetAdd s.entryFiles filename from he]
        exact self_mem_jsSetAdd _ _
      constructor
      · intro ht
        rw [mapHas, hm] at ht
        cases ht
      · intro _
        refine hmono filename s.nextRef ?_
        rw [show (allocNode { s with entryFiles := jsSetAdd s.entryFiles filename }
            filename {}).1 = s.nextRef from rfl, mapGet_mapSetState, if_pos rfl]

/-- Witness for C5 (amended) at a concrete relative filename. -/
theorem c5_addEntryFile_unresolved_witness :
    "rel.js" ∈ ((addEntryFileModel envNone quietFec 10 twoNodeState
        "rel.js").getD default).entryFiles ∧
      mapHas twoNodeState "rel.js" = false ∧
      mapGet ((addEntryFileModel envNone quietFec 10 twoNodeState
        "rel.js").getD default) "rel.js" = some twoNodeState.nextRef := by
  have h := c5_addEntryFile_unresolved envNone quietFec 10 twoNodeState "rel.js"
    ((addEntryFileModel envNone quietFec 10 twoNodeState "rel.js").getD default)
    rfl
  exact ⟨h.1, rfl, h.2.2 rfl⟩

/-! C6: how often can one node be expanded in a single populate run -/

/-- 1 while `r` has not been marked seen, 0 afterwards. -/
def seenBit (seen : List Nat) (r : Nat) : Nat :=
  if r ∈ seen then 0 else 1

theorem seenBit_append_le (seen l : List Nat) (r : Nat) :
    seenBit (seen ++ l) r ≤ seenBit seen r := by
  unfold seenBit
  by_cases h : r ∈ seen
  · simp [h, List.mem_append]
  · split <;> simp

/-- A child step either leaves the stack and seen set alone, or pushes one
frame for a reference it simultaneously marks seen (and which was unseen
before). -/
theorem childStep_stack_seen (e : Option Nat) (pf : String)
    (acc : MapState × List Frame × List Nat) (c : String) :
    (childStep e pf acc c).2 = (acc.2.1, acc.2.2)
      ∨ ∃ cref, cref ∉ acc.2.2 ∧
          (childStep e pf acc c).2
            = (⟨cref, e⟩ :: acc.2.1, acc.2.2 ++ [cref]) := by
  obtain ⟨s, stack, seen⟩ := acc
  cases hm : mapGet s c <;> cases e <;>
    simp only [childStep, hm, allocNode] <;> split
  all_goals first
    | exact Or.inl rfl
    | (rename_i hnot; exact Or.inr ⟨_, hnot, rfl⟩)

/-- The quantity `(#frames on the stack carrying r) + (1 if r unseen)` never
grows across a child step. -/
theorem childStep_count_le (e : Option Nat) (pf : String)
    (acc : MapState × List Frame × List Nat) (c : String) (r : Nat) :
    ((childStep e pf acc c).2.1.map Frame.node).count r
        + seenBit (childStep e pf acc c).2.2 r
      ≤ (acc.2.1.map Frame.node).count r + seenBit acc.2.2 r := by
  rcases childStep_stack_seen e pf acc c with h | ⟨cref, hn, h⟩
  · rw [h]
  · rw [h]
    simp only [List.map_cons, List.count_cons, seenBit, List.mem_append,
      List.mem_singleton]
    by_cases hrc : r = cref
    · subst hrc
      simp [hn]
    · have hcr : ¬ cref = r := fun hc => hrc hc.symm
      simp [hrc, hcr]

theorem foldl_childStep_count_le (e : Option Nat) (pf : String)
    (cs : List String) :
    ∀ (acc : MapState × List Frame × List Nat) (r : Nat),
      ((cs.foldl (childStep e pf) acc).2.1.map Frame.node).count r
          + seenBit (cs.foldl (childStep e pf) acc).2.2 r
        ≤ (acc.2.1.map Frame.node).count r + seenBit acc.2.2 r := by
  induction cs with
  | nil => intro acc r; exact Nat.le_refl _
  | cons c rest ih =>
    intro acc r
    exact Nat.le_trans (ih (childStep e pf acc c) r)
      (childStep_count_le e pf acc c r)

/-- Main counting invariant of the populate loop: the number of expansions of
a node reference in the instrumented visit list is bounded by the frames
carrying it on the stack, its prior visits, and one extra while it is
unseen. -/
theorem populateGo_count (env : Env) (fec : Fec) (force : Bool) :
    ∀ (fuel : Nat) (s : MapState) (stack : List Frame) (seen visited : List Nat)
      (s' : MapState) (vis : List Nat),
      populateGo env fec force fuel s stack seen visited = some (s', vis) →
      ∀ r, vis.count r
        ≤ (stack.map Frame.node).count r + visited.count r + seenBit seen r := by
  intro fuel
  induction fuel with
  | zero => intro s stack seen visited s' vis h; cases h
  | succ n ih =>
    intro s stack seen visited s' vis h r
    cases stack with
    | nil =>
      rw [show populateGo env fec force (n + 1) s [] seen visited
        = some (s, visited) from rfl] at h
      cases h
      simp only [List.map_nil, List.count_nil]
      omega
    | cons fr rest =>
      have hseen1 : seenBit (if fr.node ∈ seen then seen else seen ++ [fr.node]) r
          ≤ seenBit seen r := by
        split
        · exact Nat.le_refl _
        · exact seenBit_append_le seen [fr.node] r
      simp only [populateGo] at h
      by_cases hf :
          (force || fec.hasChanged (heapGetD s.heap fr.node).filename) = true
      · simp only [hf, if_true] at h
        have h1 := ih _ _ _ _ _ _ h r
        have h2 := foldl_childStep_count_le fr.entryNode
          (heapGetD s.heap fr.node).filename
          (findDependencies env (heapGetD s.heap fr.node).filename)
          (writeChildren s fr.node
            (findDependencies env (heapGetD s.heap fr.node).filename),
           rest, if fr.node ∈ seen then seen else seen ++ [fr.node]) r
        dsimp only at h2
        simp only [List.count_append, List.count_singleton, List.map_cons,
          List.count_cons, List.count_nil] at h1 ⊢
        omega
      · simp only [hf, Bool.false_eq_true, if_false] at h
        have h1 := ih _ _ _ _ _ _ h r
        have h2 := foldl_childStep_count_le fr.entryNode
          (heapGetD s.heap fr.node).filename
          (heapGetD s.heap fr.node).children
          (s, rest, if fr.node ∈ seen then seen else seen ++ [fr.node]) r
        dsimp only at h2
        simp only [List.count_append, List.count_singleton, List.map_cons,
          List.count_cons, List.count_nil] at h1 ⊢
        omega

theorem mkFrame_node (s : MapState) (r : Nat) : (mkFrame s r).node = r := by
  unfold mkFrame
  split <;> rfl

/-- C6 (amended): in one `_populate` call, a node object is expanded at most
once more than the number of start frames carrying it — the seen-set stops
every re-enqueue of a child, but start frames are pushed unmarked.  In
particular a node that is not in the start set is expanded at most once, and
since the start set is a `Set` of node objects, no node is ever expanded more
than twice. -/
theorem c6_expansion_bound (env : Env) (fec : Fec) (fuel : Nat) (s : MapState)
    (startRefs : List Nat) (force : Bool) (s' : MapState) (vis : List Nat)
    (h : populateFuel env fec fuel s startRefs force = some (s', vis)) (r : Nat) :
    vis.count r ≤ startRefs.count r + 1
      ∧ (r ∉ startRefs → vis.count r ≤ 1) := by
  unfold populateFuel at h
  have hcount := populateGo_count env fec force fuel s _ [] [] s' vis h r
  have hstack : (((startRefs.map (mkFrame s)).reverse.map Frame.node).count r)
      = startRefs.count r := by
    rw [← List.map_reverse, List.map_map]
    have hfun : (Frame.node ∘ mkFrame s) = id := funext (fun x => mkFrame_node s x)
    rw [hfun, List.map_id, List.count_reverse]
  have hbit : seenBit [] r = 1 := by simp [seenBit]
  rw [hstack, hbit] at hcount
  simp only [List.count_nil] at hcount
  constructor
  · omega
  · intro hr
    rw [List.count_eq_zero_of_not_mem hr] at hcount
    omega

/-- Witness for C6 (amended) at the double-expansion input: node `1` occurs
once in the start set, so it is expanded at most twice. -/
theorem c6_expansion_bound_witness :
    ((populateFuel envAtoB coldFec 10 twoNodeState [1, 0] false).getD
        default).2.count 1 ≤ ([1, 0] : List Nat).count 1 + 1 := by
  have h := c6_expansion_bound envAtoB coldFec 10 twoNodeState [1, 0] false
    ((populateFuel envAtoB coldFec 10 twoNodeState [1, 0] false).getD default).1
    ((populateFuel envAtoB coldFec 10 twoNodeState [1, 0] false).getD default).2
    rfl 1
  exact h.1

/-! C1: the forward half of the edge invariant across a populate run -/

theorem mapGet_lt_of_wf {s : MapState} (hwf : WfMapRefs s) {k : String}
    {v : Nat} (h : mapGet s k = some v) : v < s.nextRef := by
  unfold mapGet at h
  cases hf : s.nodes.find? (fun p => p.1 == k) with
  | none => rw [hf] at h; cases h
  | some p =>
    rw [hf] at h
    cases h
    exact hwf p (List.mem_of_find?_eq_some hf)

theorem writeChildren_children_self (s : MapState) (t : Nat) (cs : List String) :
    heapGetD (writeChildren s t cs).heap t = (heapGetD s.heap t).setChildren cs := by
  unfold writeChildren
  exact heapGetD_heapSet_self _ _ _

theorem writeChildren_heap_ne (s : MapState) (t : Nat) (cs : List String)
    {r : Nat} (hne : r ≠ t) :
    heapGetD (writeChildren s t cs).heap r = heapGetD s.heap r := by
  unfold writeChildren
  rw [heapGetD_heapSet, if_neg hne]

theorem writeChildren_filename (s : MapState) (t : Nat) (cs : List String)
    (r : Nat) :
    (heapGetD (writeChildren s t cs).heap r).filename
      = (heapGetD s.heap r).filename := by
  by_cases hrt : r = t
  · subst hrt
    rw [writeChildren_children_self]
    rfl
  · rw [writeChildren_heap_ne s t cs hrt]

theorem writeChildren_parents (s : MapState) (t : Nat) (cs : List String)
    (r : Nat) :
    (heapGetD (writeChildren s t cs).heap r).parents
      = (heapGetD s.heap r).parents := by
  by_cases hrt : r = t
  · subst hrt
    rw [writeChildren_children_self]
    rfl
  · rw [writeChildren_heap_ne s t cs hrt]

/-- The child loop keeps every stack frame's reference below the allocation
counter. -/
theorem childStep_frames_bound (e : Option Nat) (pf : String)
    (acc : MapState × List Frame × List Nat) (c : String)
    (hwf : WfMapRefs acc.1)
    (hstack : ∀ fr ∈ acc.2.1, fr.node < acc.1.nextRef) :
    ∀ fr ∈ (childStep e pf acc c).2.1,
      fr.node < (childStep e pf acc c).1.nextRef := by
  obtain ⟨s, stack, seen⟩ := acc
  cases hm : mapGet s c with
  | some cref =>
    have hcref : cref < s.nextRef := mapGet_lt_of_wf hwf hm
    cases e <;> simp only [childStep, hm, allocNode] <;> split <;>
      (intro fr hfr
       first
        | exact hstack fr hfr
        | (rcases List.mem_cons.mp hfr with rfl | hfr2
           · exact hcref
           · exact hstack fr hfr2))
  | none =>
    cases e <;> simp only [childStep, hm, allocNode] <;> split <;>
      (intro fr hfr
       first
        | exact Nat.lt_succ_of_lt (hstack fr hfr)
        | (rcases List.mem_cons.mp hfr with rfl | hfr2
           · exact Nat.lt_succ_self _
           · exact Nat.lt_succ_of_lt (hstack fr hfr2)))

theorem foldl_childStep_frames_bound (e : Option Nat) (pf : String)
    (cs : List String) :
    ∀ (acc : MapState × List Frame × List Nat), WfMapRefs acc.1 →
      (∀ fr ∈ acc.2.1, fr.node < acc.1.nextRef) →
      ∀ fr ∈ (cs.foldl (childStep e pf) acc).2.1,
        fr.node < (cs.foldl (childStep e pf) acc).1.nextRef := by
  induction cs with
  | nil => intro acc _ hstack; exact hstack
  | cons c rest ih =>
    intro acc hwf hstack
    exact ih _ (childStep_wfMapRefs e pf acc c hwf)
      (childStep_frames_bound e pf acc c hwf hstack)

/-- Main loop invariant for C1: after the populate loop finishes, every node
it expanded satisfies the forward half of the edge invariant. -/
theorem populateGo_forward (env : Env) (fec : Fec) (force : Bool) :
    ∀ (fuel : Nat) (s : MapState) (stack : List Frame) (seen visited : List Nat)
      (s' : MapState) (vis : List Nat),
      populateGo env fec force fuel s stack seen visited = some (s', vis) →
      WfMapRefs s →
      (∀ fr ∈ stack, fr.node < s.nextRef) →
      (∀ r ∈ visited, r < s.nextRef) →
      (∀ r ∈ visited, forwardEdgeOkFor s r) →
      ∀ r ∈ vis, forwardEdgeOkFor s' r := by
  intro fuel
  induction fuel with
  | zero => intro s stack seen visited s' vis h; cases h
  | succ n ih =>
    intro s stack seen visited s' vis h hwf hstack hvb hinv
    cases stack with
    | nil =>
      rw [show populateGo env fec force (n + 1) s [] seen visited
        = some (s, visited) from rfl] at h
      cases h
      exact hinv
    | cons fr rest =>
      simp only [populateGo] at h
      have hfrb : fr.node < s.nextRef := hstack fr (List.mem_cons_self _ _)
      by_cases hf :
          (force || fec.hasChanged (heapGetD s.heap fr.node).filename) = true
      · simp only [hf, if_true] at h
        refine ih _ _ _ _ _ _ h ?_ ?_ ?_ ?_
        · exact foldl_childStep_wfMapRefs _ _ _ _ hwf
        · exact foldl_childStep_frames_bound _ _ _ _ hwf
            (fun fr2 hfr2 => hstack fr2 (List.mem_cons_of_mem _ hfr2))
        · obtain ⟨hle, _, _, _, _⟩ := foldl_childStep_stepsTo fr.entryNode
            (heapGetD s.heap fr.node).filename
            (findDependencies env (heapGetD s.heap fr.node).filename)
            (writeChildren s fr.node
              (findDependencies env (heapGetD s.heap fr.node).filename),
             rest, if fr.node ∈ seen then seen else seen ++ [fr.node])
          intro r hr
          rcases List.mem_append.mp hr with hrv | hrfr
          · exact Nat.lt_of_lt_of_le (hvb r hrv) hle
          · rw [List.mem_singleton.mp hrfr]
            exact Nat.lt_of_lt_of_le hfrb hle
        · obtain ⟨hle, _, _, hmono, hbelow⟩ := foldl_childStep_stepsTo fr.entryNode
            (heapGetD s.heap fr.node).filename
            (findDependencies env (heapGetD s.heap fr.node).filename)
            (writeChildren s fr.node
              (findDependencies env (heapGetD s.heap fr.node).filename),
             rest, if fr.node ∈ seen then seen else seen ++ [fr.node])
          have hes := foldl_childStep_establishes fr.entryNode
            (heapGetD s.heap fr.node).filename
            (findDependencies env (heapGetD s.heap fr.node).filename)
            (writeChildren s fr.node
              (findDependencies env (heapGetD s.heap fr.node).filename),
             rest, if fr.node ∈ seen then seen else seen ++ [fr.node]) hwf
          have hestab : forwardEdgeOkFor
              ((findDependencies env (heapGetD s.heap fr.node).filename).foldl
                (childStep fr.entryNode (heapGetD s.heap fr.node).filename)
                (writeChildren s fr.node
                  (findDependencies env (heapGetD s.heap fr.node).filename),
                 rest, if fr.node ∈ seen then seen else seen ++ [fr.node])).1
              fr.node := by
            intro c hc
            have hch := (hbelow fr.node hfrb).1
            rw [hch, writeChildren_children_self] at hc
            have hcs : c ∈ findDependencies env (heapGetD s.heap fr.node).filename :=
              mem_jsSetOfList.mp hc
            obtain ⟨cr, hget, hpar⟩ := hes c hcs
            refine ⟨cr, hget, ?_⟩
            rw [(hbelow fr.node hfrb).2.1, writeChildren_filename]
            exact hpar
          intro r hr
          rcases List.mem_append.mp hr with hrv | hrfr
          · by_cases hrfr2 : r = fr.node
            · rw [hrfr2]; exact hestab
            · intro c hc
              have hch := (hbelow r (hvb r hrv)).1
              rw [hch, writeChildren_heap_ne s fr.node _ hrfr2] at hc
              obtain ⟨cr, hgetold, hparold⟩ := hinv r hrv c hc
              have hcrb : cr < s.nextRef := mapGet_lt_of_wf hwf hgetold
              refine ⟨cr, hmono c cr hgetold, ?_⟩
              rw [(hbelow r (hvb r hrv)).2.1, writeChildren_filename]
              refine (hbelow cr hcrb).2.2 _ ?_
              rw [writeChildren_parents]
              exact hparold
          · rw [List.mem_singleton.mp hrfr]
            exact hestab
      · simp only [hf, Bool.false_eq_true, if_false] at h
        refine ih _ _ _ _ _ _ h ?_ ?_ ?_ ?_
        · exact foldl_childStep_wfMapRefs _ _ _ _ hwf
        · exact foldl_childStep_frames_bound _ _ _ _ hwf
            (fun fr2 hfr2 => hstack fr2 (List.mem_cons_of_mem _ hfr2))
        · obtain ⟨hle, _, _, _, _⟩ := foldl_childStep_stepsTo fr.entryNode
            (heapGetD s.heap fr.node).filename
            (heapGetD s.heap fr.node).children
            (s, rest, if fr.node ∈ seen then seen else seen ++ [fr.node])
          intro r hr
          rcases List.mem_append.mp hr with hrv | hrfr
          · exact Nat.lt_of_lt_of_le (hvb r hrv) hle
          · rw [List.mem_singleton.mp hrfr]
            exact Nat.lt_of_lt_of_le hfrb hle
        · obtain ⟨hle, _, _, hmono, hbelow⟩ := foldl_childStep_stepsTo fr.entryNode
            (heapGetD s.heap fr.node).filename
            (heapGetD s.heap fr.node).children
            (s, rest, if fr.node ∈ seen then seen else seen ++ [fr.node])
          have hes := foldl_childStep_establishes fr.entryNode
            (heapGetD s.heap fr.node).filename
            (heapGetD s.heap fr.node).children
            (s, rest, if fr.node ∈ seen then seen else seen ++ [fr.node]) hwf
          have hestab : forwardEdgeOkFor
              ((heapGetD s.heap fr.node).children.foldl
                (childStep fr.entryNode (heapGetD s.heap fr.node).filename)
                (s, rest, if fr.node ∈ seen then seen else seen ++ [fr.node])).1
              fr.node := by
            intro c hc
            have hch := (hbelow fr.node hfrb).1
            rw [hch] at hc
            obtain ⟨cr, hget, hpar⟩ := hes c hc
            refine ⟨cr, hget, ?_⟩
            rw [(hbelow fr.node hfrb).2.1]
            exact hpar
          intro r hr
          rcases List.mem_append.mp hr with hrv | hrfr
          · by_cases hrfr2 : r = fr.node
            · rw [hrfr2]; exact hestab
            · intro c hc
              have hch := (hbelow r (hvb r hrv)).1
              rw [hch] at hc
              obtain ⟨cr, hgetold, hparold⟩ := hinv r hrv c hc
              have hcrb : cr < s.nextRef := mapGet_lt_of_wf hwf hgetold
              refine ⟨cr, hmono c cr hgetold, ?_⟩
              rw [(hbelow r (hvb r hrv)).2.1]
              exact (hbelow cr hcrb).2.2 _ hparold
          · rw [List.mem_singleton.mp hrfr]
            exact hestab

/-- C1 (amended): after `_populate` returns, the forward direction of the
bidirectional-edge invariant holds for every node the call visited: each
filename in its `children` set is bound in the map to a node whose `parents`
set contains the visiting node's filename.  (The reverse direction can fail:
see the counterexample, where re-extraction drops a child but the stale
parent entry survives.) -/
theorem c1_populate_forward_direction (env : Env) (fec : Fec) (fuel : Nat)
    (s : MapState) (startRefs : List Nat) (force : Bool) (s' : MapState)
    (vis : List Nat) (hwf : WfMapRefs s)
    (hstart : ∀ r ∈ startRefs, r < s.nextRef)
    (h : populateFuel env fec fuel s startRefs force = some (s', vis)) :
    ∀ r ∈ vis, forwardEdgeOkFor s' r := by
  unfold populateFuel at h
  refine populateGo_forward env fec force fuel s _ [] [] s' vis h hwf ?_ ?_ ?_
  · intro fr hfr
    rw [List.mem_reverse] at hfr
    obtain ⟨r0, hr0, rfl⟩ := List.mem_map.mp hfr
    rw [mkFrame_node]
    exact hstart r0 hr0
  · intro r hr
    simp at hr
  · intro r hr
    simp at hr

/-- Witness for C1 (amended) at the two-node graph: the hypotheses hold and
every node visited by the populate run satisfies the forward direction. -/
theorem c1_populate_forward_direction_witness :
    WfMapRefs twoNodeState ∧ (∀ r ∈ ([1, 0] : List Nat), r < twoNodeState.nextRef) ∧
      ∀ r ∈ ((populateFuel envAtoB coldFec 10 twoNodeState [1, 0]
          false).getD default).2,
        forwardEdgeOkFor
          ((populateFuel envAtoB coldFec 10 twoNodeState [1, 0] false).getD
            default).1 r := by
  refine ⟨?_, ?_, ?_⟩
  · intro kv hkv
    fin_cases hkv <;> decide
  · decide
  · exact c1_populate_forward_direction envAtoB coldFec 10 twoNodeState [1, 0]
      false _ _ (by intro kv hkv; fin_cases hkv <;> decide) (by decide) rfl

/-! C8: sorting lemmas for the serialized form -/

theorem charListLe_total : ∀ (a b : List Char),
    charListLe a b = true ∨ charListLe b a = true := by
  intro a
  induction a with
  | nil => intro b; exact Or.inl rfl
  | cons x xs ih =>
    intro b
    cases b with
    | nil => exact Or.inr rfl
    | cons y ys =>
      by_cases hxy : x = y
      · subst hxy
        simp only [charListLe, beq_self_eq_true, if_true]
        exact ih ys
      · have hxyb : (x == y) = false := by simp [hxy]
        have hyxb : (y == x) = false := by simp [Ne.symm hxy]
        simp only [charListLe, hxyb, hyxb, Bool.false_eq_true, if_false]
        rcases lt_or_gt_of_ne hxy with hlt | hgt
        · exact Or.inl (by simpa using hlt)
        · exact Or.inr (by simpa using hgt)

theorem strLe_total (a b : String) : strLe a b = true ∨ strLe b a = true :=
  charListLe_total a.data b.data

theorem strInsert_chain (x : String) :
    ∀ (l : List String),
      List.Chain' (fun a b => strLe a b = true) l →
      List.Chain' (fun a b => strLe a b = true) (strInsert x l) := by
  intro l
  induction l with
  | nil => intro _; simp [strInsert]
  | cons y ys ih =>
    intro hch
    unfold strInsert
    by_cases hxy : strLe x y = true
    · rw [if_pos hxy]
      exact List.chain'_cons'.mpr
        ⟨fun z hz => by rw [List.head?_cons] at hz; cases hz; exact hxy, hch⟩
    · rw [if_neg hxy]
      have hyx : strLe y x = true := by
        rcases strLe_total x y with h1 | h1
        · exact absurd h1 hxy
        · exact h1
      obtain ⟨hhead, htail⟩ := List.chain'_cons'.mp hch
      refine List.chain'_cons'.mpr ⟨?_, ih htail⟩
      cases ys with
      | nil =>
        intro z hz
        rw [show strInsert x [] = [x] from rfl, List.head?_cons] at hz
        cases hz
        exact hyx
      | cons w ws =>
        intro z hz
        unfold strInsert at hz
        by_cases hxw : strLe x w = true
        · rw [if_pos hxw, List.head?_cons] at hz
          cases hz
          exact hyx
        · rw [if_neg hxw, List.head?_cons] at hz
          cases hz
          exact hhead w (by simp)

theorem sortStr_chain (l : List String) :
    List.Chain' (fun a b => strLe a b = true) (sortStr l) := by
  induction l with
  | nil => simp [sortStr]
  | cons x xs ih => exact strInsert_chain x (sortStr xs) ih

theorem sortStr_eq_of_chain :
    ∀ (l : List String), List.Chain' (fun a b => strLe a b = true) l →
      sortStr l = l := by
  intro l
  induction l with
  | nil => intro _; rfl
  | cons x xs ih =>
    intro hch
    obtain ⟨hhead, htail⟩ := List.chain'_cons'.mp hch
    show strInsert x (sortStr xs) = x :: xs
    rw [ih htail]
    cases xs with
    | nil => rfl
    | cons y ys =>
      unfold strInsert
      rw [if_pos (hhead y (by simp))]

theorem strInsert_perm (x : String) :
    ∀ (l : List String), (strInsert x l).Perm (x :: l) := by
  intro l
  induction l with
  | nil => exact List.Perm.refl _
  | cons y ys ih =>
    unfold strInsert
    by_cases hxy : strLe x y = true
    · rw [if_pos hxy]
    · rw [if_neg hxy]
      exact (List.Perm.cons y ih).trans (List.Perm.swap x y ys)

theorem sortStr_perm (l : List String) : (sortStr l).Perm l := by
  induction l with
  | nil => exact List.Perm.refl _
  | cons x xs ih =>
    exact (strInsert_perm x (sortStr xs)).trans (List.Perm.cons x ih)

theorem sortStr_nodup {l : List String} (h : l.Nodup) : (sortStr l).Nodup :=
  List.Perm.nodup (List.Perm.symm (sortStr_perm l)) h

/-- Serializing a set, deduplicating the result, and sorting again gives back
the sorted set (what the round trip does to each per-node array). -/
theorem sortStr_jsSet_sorted {e : List String} (h : e.Nodup) :
    sortStr (jsSetOfList (sortStr e)) = sortStr e := by
  rw [jsSetOfList_eq_self (sortStr_nodup h)]
  exact sortStr_eq_of_chain _ (sortStr_chain e)

/-- Inserting an element that does not compare strictly below anything in
the accumulator appends it at the end. -/
theorem cmpInsert_append {α : Type} (cmp : α → α → Int) (x : α) :
    ∀ (acc : List α), (∀ y ∈ acc, ¬ cmp x y < 0) →
      cmpInsert cmp x acc = acc ++ [x] := by
  intro acc
  induction acc with
  | nil => intro _; rfl
  | cons y ys ih =>
    intro h
    unfold cmpInsert
    rw [if_neg (h y (List.mem_cons_self _ _))]
    rw [ih (fun z hz => h z (List.mem_cons_of_mem _ hz))]
    rfl

/-- A stable sort whose comparator never orders any two list elements is the
identity (this is `toJSON`'s `aKey - bKey` comparator on path keys: `NaN`,
treated as `0`). -/
theorem cmpSort_eq_self {α : Type} (cmp : α → α → Int) :
    ∀ (l : List α), (∀ x ∈ l, ∀ y ∈ l, ¬ cmp x y < 0) →
      cmpSort cmp l = l := by
  have haux : ∀ (l acc : List α),
      (∀ x ∈ l, ∀ y ∈ l, ¬ cmp x y < 0) →
      (∀ x ∈ l, ∀ y ∈ acc, ¬ cmp x y < 0) →
      l.foldl (fun a x => cmpInsert cmp x a) acc = acc ++ l := by
    intro l
    induction l with
    | nil => intro acc _ _; simp
    | cons x xs ih =>
      intro acc hl hacc
      simp only [List.foldl_cons]
      rw [cmpInsert_append cmp x acc (hacc x (List.mem_cons_self _ _))]
      rw [ih (acc ++ [x])
        (fun a ha b hb => hl a (List.mem_cons_of_mem _ ha) b
          (List.mem_cons_of_mem _ hb))
        (fun a ha b hb => by
          rcases List.mem_append.mp hb with hb1 | hb1
          · exact hacc a (List.mem_cons_of_mem _ ha) b hb1
          · rw [List.mem_singleton.mp hb1]
            exact hl a (List.mem_cons_of_mem _ ha) x (List.mem_cons_self _ _))]
      simp
  intro l h
  exact haux l [] h (fun x _ y hy => absurd hy (List.not_mem_nil y))

/-- On keys JavaScript coerces to `NaN`, the `toJSON` comparator returns 0. -/
theorem jsSubCmp_nan_left {a b : String} (h : jsToNum a = none) :
    jsSubCmp a b = 0 := by
  unfold jsSubCmp
  rw [h]

/-- `toJSON` through the resolved per-node view, when the keys are path-like
(`NaN` under numeric coercion) so the sort is the identity. -/
theorem mapToJSON_of_nan_keys (t : MapState)
    (hk : ∀ kv ∈ t.nodes, jsToNum kv.1 = none) :
    mapToJSON t = (resolvedNodes t).map (fun kv => (kv.1, nodeToJSON kv.2)) := by
  unfold mapToJSON resolvedNodes
  rw [cmpSort_eq_self _ t.nodes
    (fun x hx _ _ => by rw [jsSubCmp_nan_left (hk x hx)]; omega)]
  rw [List.map_map]
  rfl

/-- When the key is not yet bound, `Map#set` appends. -/
theorem assocSet_append_of_none (l : List (String × Nat)) (k : String)
    (v : Nat) (h : l.find? (fun p => p.1 == k) = none) :
    assocSet l k v = l ++ [(k, v)] := by
  induction l with
  | nil => rfl
  | cons q t ih =>
    obtain ⟨a, b⟩ := q
    rw [List.find?_cons] at h
    dsimp only at h
    by_cases hak : (a == k) = true
    · rw [hak] at h
      cases h
    · have hakf : (a == k) = false := by simpa using hak
      rw [hakf] at h
      unfold assocSet
      rw [if_neg (by simpa using hak), ih h]
      rfl

/-- How `mergeFromCache` builds the map: starting from a well-formed state
whose bindings avoid the record filenames, it appends one freshly allocated
node per record (in record order), keyed by the record's `filename` field. -/
theorem mergeFold_resolved :
    ∀ (R : List (String × CacheRecord)) (st : MapState),
      WfMapRefs st →
      (∀ kv ∈ R, mapGet st kv.2.filename = none) →
      (R.map (fun kv => kv.2.filename)).Nodup →
      resolvedNodes (mergeFromCacheModel st R false)
        = resolvedNodes st
          ++ R.map (fun kv =>
              (kv.2.filename,
               NodeData.create kv.2.filename
                 { entryFiles := kv.2.entryFiles, children := kv.2.children,
                   parents := kv.2.parents })) := by
  intro R
  induction R with
  | nil => intro st _ _ _; simp [mergeFromCacheModel, resolvedNodes]
  | cons kv rest ih =>
    intro st hwf hdisj hnd
    have hstep : mergeFromCacheModel st (kv :: rest) false
        = mergeFromCacheModel
            (mapSetState (allocNode st kv.2.filename
              { entryFiles := kv.2.entryFiles, children := kv.2.children,
                parents := kv.2.parents }).2 kv.2.filename
              (allocNode st kv.2.filename
                { entryFiles := kv.2.entryFiles, children := kv.2.children,
                  parents := kv.2.parents }).1)
            rest false := rfl
    have hkvnone := hdisj kv (List.mem_cons_self _ _)
    have hfind : st.nodes.find? (fun p => p.1 == kv.2.filename) = none := by
      unfold mapGet at hkvnone
      cases hf : st.nodes.find? (fun p => p.1 == kv.2.filename) with
      | none => rfl
      | some p => rw [hf] at hkvnone; cases hkvnone
    have hres1 : resolvedNodes (mapSetState (allocNode st kv.2.filename
          { entryFiles := kv.2.entryFiles, children := kv.2.children,
            parents := kv.2.parents }).2 kv.2.filename
          (allocNode st kv.2.filename
            { entryFiles := kv.2.entryFiles, children := kv.2.children,
              parents := kv.2.parents }).1)
        = resolvedNodes st
          ++ [(kv.2.filename,
               NodeData.create kv.2.filename
                 { entryFiles := kv.2.entryFiles, children := kv.2.children,
                   parents := kv.2.parents })] := by
      unfold resolvedNodes mapSetState allocNode
      dsimp only
      rw [assocSet_append_of_none _ _ _ hfind]
      rw [List.map_append]
      congr 1
      · refine List.map_eq_map_iff.mpr ?_
        intro p hp
        have hplt : p.2 < st.nextRef := hwf p hp
        rw [heapGetD_heapSet, if_neg (Nat.ne_of_lt hplt)]
      · simp only [List.map_cons, List.map_nil]
        rw [heapGetD_heapSet_self]
    have hwf1 : WfMapRefs (mapSetState (allocNode st kv.2.filename
          { entryFiles := kv.2.entryFiles, children := kv.2.children,
            parents := kv.2.parents }).2 kv.2.filename
          (allocNode st kv.2.filename
            { entryFiles := kv.2.entryFiles, children := kv.2.children,
              parents := kv.2.parents }).1) := by
      intro p hp
      unfold mapSetState allocNode at hp
      dsimp only at hp
      rw [assocSet_append_of_none _ _ _ hfind] at hp
      rcases List.mem_append.mp hp with hp1 | hp1
      · exact Nat.lt_succ_of_lt (hwf p hp1)
      · rw [List.mem_singleton.mp hp1]
        exact Nat.lt_succ_self _
    have hdisj1 : ∀ kv2 ∈ rest,
        mapGet (mapSetState (allocNode st kv.2.filename
          { entryFiles := kv.2.entryFiles, children := kv.2.children,
            parents := kv.2.parents }).2 kv.2.filename
          (allocNode st kv.2.filename
            { entryFiles := kv.2.entryFiles, children := kv.2.children,
              parents := kv.2.parents }).1) kv2.2.filename = none := by
      intro kv2 hkv2
      rw [mapGet_mapSetState]
      have hne : kv2.2.filename ≠ kv.2.filename := by
        intro hc
        refine (List.nodup_cons.mp hnd).1 ?_
        show kv.2.filename ∈ rest.map (fun p => p.2.filename)
        rw [← hc]
        exact List.mem_map_of_mem (fun p => p.2.filename) hkv2
      rw [if_neg hne]
      exact hdisj kv2 (List.mem_cons_of_mem _ hkv2)
    rw [hstep, ih _ hwf1 hdisj1 (List.nodup_cons.mp hnd).2, hres1]
    simp

theorem resolvedNodes_keys (t : MapState) :
    (resolvedNodes t).map Prod.fst = t.nodes.map Prod.fst := by
  unfold resolvedNodes
  rw [List.map_map]
  rfl

/-- C8: for a well-formed map — path-like keys (JavaScript coerces them to
`NaN`), no duplicate keys, each key agreeing with its node's `filename`
field, duplicate-free node sets — serializing with `toJSON`, writing those
records to the cache and loading a fresh map from it via `mergeFromCache`
yields a map whose `toJSON` output equals the original's. -/
theorem c8_serialization_round_trip (s : MapState)
    (hkeys : ∀ kv ∈ s.nodes, jsToNum kv.1 = none)
    (hnodup : (s.nodes.map Prod.fst).Nodup)
    (hfn : ∀ kv ∈ s.nodes, (heapGetD s.heap kv.2).filename = kv.1)
    (hsets : ∀ kv ∈ s.nodes, (heapGetD s.heap kv.2).entryFiles.Nodup
        ∧ (heapGetD s.heap kv.2).children.Nodup
        ∧ (heapGetD s.heap kv.2).parents.Nodup) :
    mapToJSON (reloadFromJSON s) = mapToJSON s := by
  have hJSON : mapToJSON s
      = s.nodes.map (fun kv => (kv.1, nodeToJSON (heapGetD s.heap kv.2))) := by
    rw [mapToJSON_of_nan_keys s hkeys]
    unfold resolvedNodes
    rw [List.map_map]
    rfl
  have hR : (mapToJSON s).map serToRecord
      = s.nodes.map (fun kv =>
          (kv.1,
           ({ filename := (heapGetD s.heap kv.2).filename,
              entryFiles := sortStr (heapGetD s.heap kv.2).entryFiles,
              children := sortStr (heapGetD s.heap kv.2).children,
              parents := sortStr (heapGetD s.heap kv.2).parents } : CacheRecord))) := by
    rw [hJSON, List.map_map]
    rfl
  have hfilenames : ((mapToJSON s).map serToRecord).map (fun kv => kv.2.filename)
      = s.nodes.map Prod.fst := by
    rw [hR, List.map_map]
    refine List.map_eq_map_iff.mpr ?_
    intro kv hkv
    exact hfn kv hkv
  have hreload : reloadFromJSON s
      = mergeFromCacheModel
          { heap := [], nextRef := 0, nodes := [], entryFiles := [],
            cwd := s.cwd } ((mapToJSON s).map serToRecord) false := rfl
  have hmerge := mergeFold_resolved ((mapToJSON s).map serToRecord)
    { heap := [], nextRef := 0, nodes := [], entryFiles := [], cwd := s.cwd }
    (fun kv hkv => absurd hkv (List.not_mem_nil kv))
    (fun _ _ => rfl)
    (by rw [hfilenames]; exact hnodup)
  have hresolved : resolvedNodes (reloadFromJSON s)
      = ((mapToJSON s).map serToRecord).map (fun kv =>
          (kv.2.filename,
           NodeData.create kv.2.filename
             { entryFiles := kv.2.entryFiles, children := kv.2.children,
               parents := kv.2.parents })) := by
    rw [hreload, hmerge]
    simp [resolvedNodes]
  have hkR : ∀ kv ∈ (reloadFromJSON s).nodes, jsToNum kv.1 = none := by
    intro kv hkv
    have h1 : kv.1 ∈ (reloadFromJSON s).nodes.map Prod.fst :=
      List.mem_map_of_mem Prod.fst hkv
    rw [← resolvedNodes_keys, hresolved, List.map_map] at h1
    have h2 : kv.1 ∈ s.nodes.map Prod.fst := by
      have : (Prod.fst ∘ fun kv : String × CacheRecord =>
          ((kv.2.filename : String),
           NodeData.create kv.2.filename
             { entryFiles := kv.2.entryFiles, children := kv.2.children,
               parents := kv.2.parents })) = fun kv => kv.2.filename := rfl
      rw [this, hfilenames] at h1
      exact h1
    obtain ⟨kv0, hkv0, heq⟩ := List.mem_map.mp h2
    rw [← heq]
    exact hkeys kv0 hkv0
  rw [mapToJSON_of_nan_keys _ hkR, hresolved, List.map_map, hR, List.map_map,
    hJSON]
  refine List.map_eq_map_iff.mpr ?_
  intro kv hkv
  obtain ⟨hE, hC, hP⟩ := hsets kv hkv
  show ((heapGetD s.heap kv.2).filename,
      nodeToJSON (NodeData.create (heapGetD s.heap kv.2).filename
        { entryFiles := sortStr (heapGetD s.heap kv.2).entryFiles,
          children := sortStr (heapGetD s.heap kv.2).children,
          parents := sortStr (heapGetD s.heap kv.2).parents }))
    = (kv.1, nodeToJSON (heapGetD s.heap kv.2))
  rw [hfn kv hkv]
  unfold NodeData.create nodeToJSON
  dsimp only
  rw [sortStr_jsSet_sorted hE, sortStr_jsSet_sorted hC, sortStr_jsSet_sorted hP,
    hfn kv hkv]

/-- Witness for C8 at a concrete two-node map. -/
theorem c8_serialization_round_trip_witness :
    (∀ kv ∈ twoNodeState.nodes, jsToNum kv.1 = none) ∧
      (twoNodeState.nodes.map Prod.fst).Nodup ∧
      mapToJSON (reloadFromJSON twoNodeState) = mapToJSON twoNodeState := by
  refine ⟨?_, ?_, ?_⟩
  · intro kv hkv
    fin_cases hkv <;> rfl
  · decide
  · exact c8_serialization_round_trip twoNodeState
      (by intro kv hkv; fin_cases hkv <;> rfl)
      (by decide)
      (by intro kv hkv; fin_cases hkv <;> rfl)
      (by intro kv hkv; fin_cases hkv <;> exact ⟨by decide, by decide, by decide⟩)

/-! C2: the cascading delete does not terminate on a 2-cycle

One pass of `delete("/p/a.js")` over `cycleState` empties both parent sets
(`cycleState` → `cycleState1` → `cycleState2`), and from `cycleState2` the
cascade calls `delete("/p/b.js")` and `delete("/p/a.js")` alternately without
changing the state — the nodes are only removed from the map *after* the
cascade returns, which it never does.  The reduction lemmas below hold by
`rfl`: one call-stack level of `delete` turns into the cascade call on the
other filename at the (unchanged) state. -/

theorem deleteStepFuel (m : Nat) (s : MapState) (f : String) :
    deleteFuel (m + 1) s f = deleteBody (deleteFuel m) s f := rfl

theorem deleteCycleRedA2 (g : MapState → String → Except JsErr MapState) :
    deleteBody g cycleState2 "/p/a.js" =
      (match (match g cycleState2 "/p/b.js" with
              | Except.error e => (Except.error e : Except JsErr MapState)
              | Except.ok s2 => Except.ok s2) with
       | Except.error e => Except.error e
       | Except.ok s1 => delCont 0 "/p/a.js" "/p/a.js" s1) := rfl

theorem deleteCycleRedB2 (g : MapState → String → Except JsErr MapState) :
    deleteBody g cycleState2 "/p/b.js" =
      (match (match g cycleState2 "/p/a.js" with
              | Except.error e => (Except.error e : Except JsErr MapState)
              | Except.ok s2 => Except.ok s2) with
       | Except.error e => Except.error e
       | Except.ok s1 => delCont 1 "/p/b.js" "/p/b.js" s1) := rfl

theorem deleteCycleRedA0 (g : MapState → String → Except JsErr MapState) :
    deleteBody g cycleState "/p/a.js" =
      (match (match g cycleState1 "/p/b.js" with
              | Except.error e => (Except.error e : Except JsErr MapState)
              | Except.ok s2 => Except.ok s2) with
       | Except.error e => Except.error e
       | Except.ok s1 => delCont 0 "/p/a.js" "/p/a.js" s1) := rfl

theorem deleteCycleRedB1 (g : MapState → String → Except JsErr MapState) :
    deleteBody g cycleState1 "/p/b.js" =
      (match (match g cycleState2 "/p/a.js" with
              | Except.error e => (Except.error e : Except JsErr MapState)
              | Except.ok s2 => Except.ok s2) with
       | Except.error e => Except.error e
       | Except.ok s1 => delCont 1 "/p/b.js" "/p/b.js" s1) := rfl

theorem deleteCycle2_no_term (n : Nat) :
    deleteFuel n cycleState2 "/p/a.js" = .error .stackOverflow ∧
      deleteFuel n cycleState2 "/p/b.js" = .error .stackOverflow := by
  induction n with
  | zero => exact ⟨rfl, rfl⟩
  | succ m ih =>
    constructor
    · rw [deleteStepFuel, deleteCycleRedA2 (deleteFuel m), ih.2]
    · rw [deleteStepFuel, deleteCycleRedB2 (deleteFuel m), ih.1]

theorem deleteCycle1_no_term (n : Nat) :
    deleteFuel n cycleState1 "/p/b.js" = .error .stackOverflow := by
  cases n with
  | zero => rfl
  | succ m =>
    rw [deleteStepFuel, deleteCycleRedB1 (deleteFuel m),
      (deleteCycle2_no_term m).1]

/-- C2: on a map whose edge set contains a 2-cycle — `/p/a.js` and `/p/b.js`
each list the other as a child and each is the other's only parent —
`delete("/p/a.js")` does NOT terminate: at every call-stack depth the
cascading depth-first delete is still recursing (the model exhausts any
amount of fuel), because the map entry of a node is removed only after its
cascade completes, so the cascade ping-pongs between the two nodes forever
(a stack overflow at run time). -/
theorem c2_delete_cycle_no_termination (fuel : Nat) :
    deleteFuel fuel cycleState "/p/a.js" = .error .stackOverflow := by
  cases fuel with
  | zero => rfl
  | succ m =>
    rw [deleteStepFuel, deleteCycleRedA0 (deleteFuel m),
      deleteCycle1_no_term m]

end ModuleMapModel
